import Mathlib

set_option maxRecDepth 8000

/-!
Shallow embedding of the titanium_engine storage core (Rust) and proofs about it.

Byte streams are `List Nat` with every element `< 256`.  A Rust `Read`er is
modelled by threading the remaining byte list; `read_exact` on a too-short
stream fails with the `UnexpectedEof` I/O error kind, mirroring `std::io`.
Machine integers are `Nat` with explicit `% 2 ^ 32` / `% 2 ^ 64` where the
source truncates (`as u32`, `as u64`, value bits dropped by `<<`).
-/

/-- The `std::io::ErrorKind` values the engine distinguishes: `UnexpectedEof`
and `InvalidData` are corruption-class during recovery, every other kind
(represented by `otherKind`) is fatal. -/
inductive IoKind where
  | unexpectedEof : IoKind
  | invalidData : IoKind
  | otherKind : IoKind
deriving DecidableEq

/-- `TitaniumError` from `src/error.rs` (the variants the core can produce).
`CrcMismatch` carries the stored (expected) checksum as in the source. -/
inductive TErr where
  | ioErr : IoKind → TErr
  | CrcMismatch : Nat → TErr
  | VarintDecodeError : TErr
  | ConfigError : TErr
deriving DecidableEq

deriving instance DecidableEq for Except

/-- Reader primitive: `read_exact` into a `k`-byte buffer.  Returns the bytes
read and the rest of the stream, or `UnexpectedEof` when fewer than `k` bytes
remain. -/
def readExact (k : Nat) (s : List Nat) : Except TErr (List Nat × List Nat) :=
  if s.length < k then .error (.ioErr .unexpectedEof)
  else .ok (s.take k, s.drop k)

/-- Reader primitive: `read_u8`. -/
def readU8 (s : List Nat) : Except TErr (Nat × List Nat) :=
  match s with
  | [] => .error (.ioErr .unexpectedEof)
  | b :: rest => .ok (b, rest)

/-- Value of four little-endian bytes. -/
def leVal4 (b0 b1 b2 b3 : Nat) : Nat :=
  b0 + 256 * b1 + 65536 * b2 + 16777216 * b3

/-- Reader primitive: `read_u32::<LittleEndian>` (via `read_exact`, so a short
stream yields `UnexpectedEof`). -/
def readU32LE (s : List Nat) : Except TErr (Nat × List Nat) :=
  match s with
  | b0 :: b1 :: b2 :: b3 :: rest => .ok (leVal4 b0 b1 b2 b3, rest)
  | _ => .error (.ioErr .unexpectedEof)

/-- The four little-endian bytes of a `u32` value (`to_le_bytes`). -/
def leBytes4 (n : Nat) : List Nat :=
  [n % 256, n / 256 % 256, n / 65536 % 256, n / 16777216 % 256]

/-- One step of the reflected CRC-32 bit loop: shift right, conditionally
xor with the reversed polynomial `0xEDB88320`. -/
def crc32_step (c : Nat) : Nat :=
  if c % 2 = 1 then (c / 2) ^^^ 0xEDB88320 else c / 2

/-- Fold one input byte into the running CRC-32 state. -/
def crc32_byte (c b : Nat) : Nat :=
  crc32_step^[8] (c ^^^ b)

/-- `Hasher::update`: fold a byte span into the running state. Incremental
updates over several spans equal one update over their concatenation. -/
def crc32_update (c : Nat) (l : List Nat) : Nat :=
  l.foldl crc32_byte c

/-- Standard CRC-32 (IEEE, as computed by the `crc32fast` crate):
initial state `0xFFFFFFFF`, final xor `0xFFFFFFFF`. -/
def crc32 (l : List Nat) : Nat :=
  crc32_update 0xFFFFFFFF l ^^^ 0xFFFFFFFF

/-- The loop of `encode_varint`, with a structural fuel bounding the
iteration count (the loop runs at most `n` further rounds because `n` shrinks
by a factor of 128 each round). -/
def encode_varint_go : Nat → Nat → List Nat
  | 0, n => [n &&& 127]
  | fuel + 1, n =>
    if n >>> 7 = 0 then [n &&& 127]
    else (n &&& 127 ||| 128) :: encode_varint_go fuel (n >>> 7)

/-- `encode_varint` from `src/utils/varint.rs`: little-endian LEB128.  Each
iteration emits the low seven bits, sets the high bit when more remain.  The
source loop is typed `u32`; the arithmetic is width-independent (only right
shifts), so the same function also models the 64-bit encoding used by
`log_entry.rs` for `created_at` / `sequence_number` / `expire_at`. -/
def encode_varint (n : Nat) : List Nat :=
  encode_varint_go n n

/-- The decoding loop of `decode_varint` from `src/utils/varint.rs`,
parameterised by the shift ceiling (`28` in the `u32` source) and the result
width `w` (bits above `w` are dropped by the machine shift-left). -/
def decode_varint_go (ceil w : Nat) : List Nat → Nat → Nat → Except TErr (Nat × List Nat)
  | s, shift, result =>
    if shift > ceil then .error .VarintDecodeError
    else
      match s with
      | [] => .error (.ioErr .unexpectedEof)
      | b :: rest =>
        let result' := result ||| ((b &&& 127) <<< shift) % 2 ^ w
        if b &&& 128 = 0 then .ok (result', rest)
        else decode_varint_go ceil w rest (shift + 7) result'

/-- `decode_varint` for `u32`: shift ceiling 28 (from the source). -/
def decode_varint32 (s : List Nat) : Except TErr (Nat × List Nat) :=
  decode_varint_go 28 32 s 0 0

/-- Modelled from the spec: the 64-bit `decode_varint` used by
`log_entry.rs` (`decode_varint::<_, u64>`) whose generic definition is not
under `src/`; per the spec it is the same wire format with the shift ceiling
at 63. -/
def decode_varint64 (s : List Nat) : Except TErr (Nat × List Nat) :=
  decode_varint_go 63 64 s 0 0

/-- `validate_crc` from `src/utils/crc.rs`: hashes `varint(k_len)`,
`varint(v_len)`, the key buffer and the value buffer (incremental updates,
i.e. the CRC-32 of their concatenation) and returns whether the computed
checksum is NOT equal to the `crc` argument (`calculated_crc != crc`). -/
def validate_crc (crc k_len v_len : Nat) (key_buf val_buf : List Nat) : Bool :=
  decide (crc32 (encode_varint k_len ++ encode_varint v_len ++ key_buf ++ val_buf) ≠ crc)

/-- Continuation byte test for UTF-8 (`0x80..=0xBF`). -/
def utf8Cont (b : Nat) : Bool :=
  decide (128 ≤ b) && decide (b < 192)

/-- UTF-8 validity of a byte list, per RFC 3629: the check performed by
`String::from_utf8` in the decoder. -/
def utf8Valid : List Nat → Bool
  | [] => true
  | b :: rest =>
    if b < 128 then utf8Valid rest
    else if b < 194 then false
    else if b < 224 then
      match rest with
      | c1 :: r => utf8Cont c1 && utf8Valid r
      | _ => false
    else if b < 225 then
      match rest with
      | c1 :: c2 :: r => decide (160 ≤ c1) && decide (c1 < 192) && utf8Cont c2 && utf8Valid r
      | _ => false
    else if b < 237 then
      match rest with
      | c1 :: c2 :: r => utf8Cont c1 && utf8Cont c2 && utf8Valid r
      | _ => false
    else if b < 238 then
      match rest with
      | c1 :: c2 :: r => decide (128 ≤ c1) && decide (c1 < 160) && utf8Cont c2 && utf8Valid r
      | _ => false
    else if b < 240 then
      match rest with
      | c1 :: c2 :: r => utf8Cont c1 && utf8Cont c2 && utf8Valid r
      | _ => false
    else if b < 241 then
      match rest with
      | c1 :: c2 :: c3 :: r =>
        decide (144 ≤ c1) && decide (c1 < 192) && utf8Cont c2 && utf8Cont c3 && utf8Valid r
      | _ => false
    else if b < 244 then
      match rest with
      | c1 :: c2 :: c3 :: r => utf8Cont c1 && utf8Cont c2 && utf8Cont c3 && utf8Valid r
      | _ => false
    else if b < 245 then
      match rest with
      | c1 :: c2 :: c3 :: r =>
        decide (128 ≤ c1) && decide (c1 < 144) && utf8Cont c2 && utf8Cont c3 && utf8Valid r
      | _ => false
    else false

/-- `LogEntry` from `src/log_entry.rs`.  The key is a Rust `String`; we model
its UTF-8 bytes (`key.as_bytes()`), with validity tracked separately. -/
structure LogEntry where
  entry_type : Nat
  key : List Nat
  value : List Nat
  sequence_number : Nat
  created_at : Nat
  expire_at : Option Nat
deriving DecidableEq

/-- `LogEntry::new(key, value, seq).build()`: a normal record.  `now` is the
`u64` millisecond clock read inside the factory method. -/
def LogEntry.new (key value : List Nat) (seq now : Nat) : LogEntry :=
  ⟨0, key, value, seq, now, none⟩

/-- `LogEntryBuilder::with_ttl`: store `expire_at` and set bit 2 of the entry
type. -/
def LogEntry.with_ttl (e : LogEntry) (ts : Nat) : LogEntry :=
  { e with expire_at := some ts, entry_type := e.entry_type ||| 4 }

/-- `LogEntry::new_tombstone`: tombstone bit (bit 0) set, empty value. -/
def LogEntry.new_tombstone (key : List Nat) (seq now : Nat) : LogEntry :=
  ⟨1, key, [], seq, now, none⟩

/-- The metadata bytes of `encode_header`: type byte, then varints of
`created_at`, `sequence_number`, `key.len() as u32`, `value.len() as u32`,
and `expire_at` when present. -/
def LogEntry.headerMeta (e : LogEntry) : List Nat :=
  e.entry_type ::
    (encode_varint e.created_at ++ encode_varint e.sequence_number ++
      encode_varint (e.key.length % 2 ^ 32) ++ encode_varint (e.value.length % 2 ^ 32) ++
      (match e.expire_at with
       | some ts => encode_varint ts
       | none => []))

/-- `LogEntry::encode_header`: header CRC (little-endian `u32` over the
metadata bytes and the key), the metadata bytes, then the key bytes. -/
def LogEntry.encode_header (e : LogEntry) : List Nat :=
  leBytes4 (crc32 (e.headerMeta ++ e.key)) ++ e.headerMeta ++ e.key

/-- `LogEntry::encode_to`: header, body CRC over the value, value. -/
def LogEntry.encode_to (e : LogEntry) : List Nat :=
  e.encode_header ++ leBytes4 (crc32 e.value) ++ e.value

/-- The byte count `encode_to` reports back:
`(4 + meta_len + key_len) + 4 + value_len`. -/
def LogEntry.encodeRet (e : LogEntry) : Nat :=
  (4 + e.headerMeta.length + e.key.length) + 4 + e.value.length

/-- `LogHeader` from `src/log_entry.rs` (field order as in the source). -/
structure LogHeader where
  entry_type : Nat
  key : List Nat
  val_len : Nat
  created_at : Nat
  expire_at : Option Nat
  sequence_number : Nat
deriving DecidableEq

/-- The header `decode_header_and_key` recovers from an encoded entry. -/
def LogEntry.toHeader (e : LogEntry) : LogHeader :=
  ⟨e.entry_type, e.key, e.value.length, e.created_at, e.expire_at, e.sequence_number⟩

/-- The conditional `expire_at` read: a varint `u64` exactly when bit 2 of
the type byte is set. -/
def readExpire (type_byte : Nat) (s : List Nat) : Except TErr (Option Nat × List Nat) :=
  if type_byte &&& 4 ≠ 0 then
    match decode_varint64 s with
    | .error e => .error e
    | .ok (ts, rest) => .ok (some ts, rest)
  else .ok (none, s)

/-- The non-EOF path of `Decoder::decode_header_and_key`: read the stored
header CRC (4 bytes), the type byte, varints for `created_at`,
`sequence_number`, `key_len` (u32), `value_len` (u32); reject
`key_len > max_key_size as u32` or `value_len > max_val_size as u32` as
`InvalidData` before any buffer is touched; read `expire_at` iff the TTL bit
is set; recompute the CRC over the re-encoded metadata and the key bytes;
reject a mismatch; reject a non-UTF-8 key as `InvalidData`. -/
def decodeHeaderBody (maxKey maxVal : Nat) (s : List Nat) :
    Except TErr (Option (LogHeader × List Nat)) :=
  match readU32LE s with
    | .error e => .error e
    | .ok (header_crc, s1) =>
      match readU8 s1 with
      | .error e => .error e
      | .ok (type_byte, s2) =>
        match decode_varint64 s2 with
        | .error e => .error e
        | .ok (created_at, s3) =>
          match decode_varint64 s3 with
          | .error e => .error e
          | .ok (seq, s4) =>
            match decode_varint32 s4 with
            | .error e => .error e
            | .ok (k_len, s5) =>
              match decode_varint32 s5 with
              | .error e => .error e
              | .ok (v_len, s6) =>
                if k_len > maxKey % 2 ^ 32 ∨ v_len > maxVal % 2 ^ 32 then
                  .error (.ioErr .invalidData)
                else
                  match readExpire type_byte s6 with
                  | .error e => .error e
                  | .ok (expire_at, s7) =>
                    match readExact k_len s7 with
                    | .error e => .error e
                    | .ok (keyBytes, s8) =>
                      let meta := type_byte ::
                        (encode_varint created_at ++ encode_varint seq ++
                          encode_varint k_len ++ encode_varint v_len ++
                          (match expire_at with
                           | some ts => encode_varint ts
                           | none => []))
                      if crc32 (meta ++ keyBytes) ≠ header_crc then
                        .error (.CrcMismatch header_crc)
                      else if utf8Valid keyBytes then
                        .ok (some (⟨type_byte, keyBytes, v_len, created_at, expire_at, seq⟩, s8))
                      else .error (.ioErr .invalidData)

/-- `Decoder::decode_header_and_key` from `src/log_entry.rs`.  The decoder
first reads a single byte non-committally: zero bytes available at the start
is a clean end-of-stream (`none`); otherwise the full header is parsed by
`decodeHeaderBody`. -/
def decode_header_and_key (maxKey maxVal : Nat) (s : List Nat) :
    Except TErr (Option (LogHeader × List Nat)) :=
  match s with
  | [] => .ok none
  | _ :: _ => decodeHeaderBody maxKey maxVal s

/-- `Decoder::decode_from` from `src/log_entry.rs`: decode the header and
key, then the body CRC (4 bytes) and `val_len` value bytes, verifying the
body CRC. -/
def decode_from (maxKey maxVal : Nat) (s : List Nat) :
    Except TErr (Option (LogEntry × List Nat)) :=
  match decode_header_and_key maxKey maxVal s with
  | .error e => .error e
  | .ok none => .ok none
  | .ok (some (h, s1)) =>
    match readU32LE s1 with
    | .error e => .error e
    | .ok (body_crc, s2) =>
      match readExact h.val_len s2 with
      | .error e => .error e
      | .ok (value, s3) =>
        if crc32 value ≠ body_crc then .error (.CrcMismatch body_crc)
        else .ok (some (⟨h.entry_type, h.key, value, h.sequence_number,
                         h.created_at, h.expire_at⟩, s3))

/-- The number of continuation bytes that drives the decode loop past the
shift ceiling. -/
def vdeNeed (ceil shift : Nat) : Nat :=
  (ceil + 1 - shift + 6) / 7

/-- Payload reconstruction: the value denoted by a little-endian LEB128 byte
list (seven payload bits per byte). -/
def leb128Val : List Nat → Nat
  | [] => 0
  | b :: rest => (b &&& 127) + 128 * leb128Val rest

/-! ### Well-formed entries -/

/-- The representation invariants a Rust `LogEntry` enjoys by its types and
constructors: `u8` entry type, byte-valued key/value contents, `u64` numeric
fields, and the TTL bit set exactly when `expire_at` is present (the only
constructors are `new`, `new().with_ttl(..)` and `new_tombstone`). -/
def wfEntry (e : LogEntry) : Bool :=
  decide (e.entry_type < 256) && e.key.all (fun b => decide (b < 256)) &&
  e.value.all (fun b => decide (b < 256)) &&
  decide (e.sequence_number < 2 ^ 64) && decide (e.created_at < 2 ^ 64) &&
  (match e.expire_at with
   | some ts => decide (ts < 2 ^ 64) && decide (e.entry_type &&& 4 ≠ 0)
   | none => decide (e.entry_type &&& 4 = 0))

/-- A well-formed entry whose key is valid UTF-8 and whose key/value sizes
pass the decoder limits (the limits enter the comparison truncated to `u32`,
as in the source). -/
def goodEntry (maxKey maxVal : Nat) (e : LogEntry) : Bool :=
  wfEntry e && utf8Valid e.key && decide (e.key.length ≤ maxKey % 2 ^ 32) &&
  decide (e.value.length ≤ maxVal % 2 ^ 32)

/-! ### Error classification and consumption -/

/-- The corruption classifier from `KVStore::restore`: CRC mismatch, varint
decode failure, and the `UnexpectedEof` / `InvalidData` I/O kinds are
corruption-class; all other errors are fatal. -/
def corruptionClass (e : TErr) : Bool :=
  match e with
  | .CrcMismatch _ => true
  | .VarintDecodeError => true
  | .ioErr .unexpectedEof => true
  | .ioErr .invalidData => true
  | _ => false

/-- The byte length of a record header up to and including the two length
varints (the point at which the decoder enforces the size caps). -/
def LogEntry.metaPrefixLen (e : LogEntry) : Nat :=
  5 + (encode_varint e.created_at).length + (encode_varint e.sequence_number).length +
    (encode_varint (e.key.length % 2 ^ 32)).length +
    (encode_varint (e.value.length % 2 ^ 32)).length

/-! ### Engine model -/

/-- `WriteMod` from `src/config.rs`. -/
inductive WriteMod where
  | Sync : WriteMod
  | Buffer : WriteMod
deriving DecidableEq

/-- The configuration snapshot the engine consumes (`src/config.rs`).  The
claims assume a stable configuration; the hot-reload watcher is an external
collaborator per the spec. -/
structure Config where
  max_key_size : Nat
  max_val_size : Nat
  max_file_size : Nat
  write_mod : WriteMod

/-- `LogIndex` from `src/index.rs` (field order as in the source). -/
structure LogIndex where
  file_id : Nat
  val_len : Nat
  offset : Nat
deriving DecidableEq

/-- The engine state (`KVStore` from `src/kv.rs` plus its `Writer` and the
storage backing).  The active file is modelled as its byte content
(`activeContent`, what `read_at` through `writer.get_ref()` sees) plus the
length of its durable prefix (`activeSynced`); `wbuf` is the user-space
`BufWriter` buffer (not visible to reads), `wOffset` the writer's
`current_offset`.  Archives are the `file_map` as `(file_id, content)` pairs.
The index is the `HashIndexer` viewed extensionally as a partial map from key
bytes to `LogIndex`.  `faults` is an injection script: each fallible write
primitive (buffer write, flush, fsync) consumes one entry; `some err` makes
that primitive fail with `err`, and an empty script means all I/O succeeds. -/
structure KVStore where
  activeId : Nat
  activeContent : List Nat
  activeSynced : Nat
  wbuf : List Nat
  wOffset : Nat
  archives : List (Nat × List Nat)
  index : List Nat → Option LogIndex
  seq : Nat
  faults : List (Option TErr)

/-- Pop the next fault-injection entry (none = the primitive succeeds). -/
def KVStore.popFault (st : KVStore) : Option TErr × KVStore :=
  match st.faults with
  | [] => (none, st)
  | f :: rest => (f, { st with faults := rest })

/-- `Writer::write_entry`: encode the record into the buffer, return the
offset it was placed at, advance `current_offset` by the reported byte
count. -/
def KVStore.write_entry (e : LogEntry) (st : KVStore) : Except TErr Nat × KVStore :=
  match st.popFault with
  | (some err, st1) => (.error err, st1)
  | (none, st1) =>
    (.ok st1.wOffset,
     { st1 with wbuf := st1.wbuf ++ e.encode_to,
                wOffset := st1.wOffset + e.encodeRet })

/-- `BufWriter::flush`: push the user-space buffer into the file content
(the OS cache). -/
def KVStore.flushBuf (st : KVStore) : Except TErr Unit × KVStore :=
  match st.popFault with
  | (some err, st1) => (.error err, st1)
  | (none, st1) =>
    (.ok (), { st1 with activeContent := st1.activeContent ++ st1.wbuf, wbuf := [] })

/-- `Storage::sync` (fsync): everything written to the file becomes
durable. -/
def KVStore.fileSync (st : KVStore) : Except TErr Unit × KVStore :=
  match st.popFault with
  | (some err, st1) => (.error err, st1)
  | (none, st1) => (.ok (), { st1 with activeSynced := st1.activeContent.length })

/-- `Writer::sync`: flush the buffer, then fsync. -/
def KVStore.syncOp (st : KVStore) : Except TErr Unit × KVStore :=
  match st.flushBuf with
  | (.error e, st1) => (.error e, st1)
  | (.ok _, st1) => st1.fileSync

/-- `Writer::flush_to_os`: flush the buffer only. -/
def KVStore.flush_to_os (st : KVStore) : Except TErr Unit × KVStore :=
  st.flushBuf

/-- The per-write durability step: `Sync` → `writer.sync()`,
`Buffer` → `writer.flush_to_os()`. -/
def KVStore.applyWriteMod (cfg : Config) (st : KVStore) : Except TErr Unit × KVStore :=
  match cfg.write_mod with
  | .Sync => st.syncOp
  | .Buffer => st.flush_to_os

/-- `KVStore::next_seq_no`: `checked_add(1)` on the `u64` counter, failing
with an `Other`-kind I/O error when it would wrap. -/
def KVStore.next_seq_no (st : KVStore) : Except TErr Nat × KVStore :=
  if st.seq + 1 < 2 ^ 64 then (.ok (st.seq + 1), { st with seq := st.seq + 1 })
  else (.error (.ioErr .otherKind), st)

/-- `KVStore::rotate`: sync the active file, move it into the archive map as
a read-only handle, increment the active file id, and start a fresh writer
at offset 0 on a newly created file. -/
def KVStore.rotate (st : KVStore) : Except TErr Unit × KVStore :=
  match st.syncOp with
  | (.error e, st1) => (.error e, st1)
  | (.ok _, st1) =>
    (.ok (), { st1 with
      archives := (st1.activeId, st1.activeContent) :: st1.archives,
      activeId := st1.activeId + 1,
      activeContent := [], activeSynced := 0, wbuf := [], wOffset := 0 })

/-- `KVStore::set`: rotate if `current_offset ≥ max_file_size`, take the
next sequence number, append a normal record, apply the durability policy,
then insert `(active_file_id, offset, value.len() as u32)` into the index. -/
def KVStore.set (cfg : Config) (now : Nat) (key value : List Nat) (st : KVStore) :
    Except TErr Unit × KVStore :=
  match (if st.wOffset ≥ cfg.max_file_size then st.rotate else (.ok (), st)) with
  | (.error e, st1) => (.error e, st1)
  | (.ok _, st1) =>
    match st1.next_seq_no with
    | (.error e, st2) => (.error e, st2)
    | (.ok seqNo, st2) =>
      match st2.write_entry (LogEntry.new key value seqNo now) with
      | (.error e, st3) => (.error e, st3)
      | (.ok off, st3) =>
        match st3.applyWriteMod cfg with
        | (.error e, st4) => (.error e, st4)
        | (.ok _, st4) =>
          (.ok (), { st4 with index := fun k =>
            (if k = key then some (LogIndex.mk st4.activeId (value.length % 2 ^ 32) off)
             else st4.index k) })

/-- `KVStore::set_with_ttl`: as `set`, but the record carries
`expire_at = now + ttl.as_millis() as u64` (wrapping `u64` addition) and the
TTL bit. -/
def KVStore.set_with_ttl (cfg : Config) (now : Nat) (key value : List Nat) (ttl : Nat)
    (st : KVStore) : Except TErr Unit × KVStore :=
  match (if st.wOffset ≥ cfg.max_file_size then st.rotate else (.ok (), st)) with
  | (.error e, st1) => (.error e, st1)
  | (.ok _, st1) =>
    match st1.next_seq_no with
    | (.error e, st2) => (.error e, st2)
    | (.ok seqNo, st2) =>
      match st2.write_entry
          ((LogEntry.new key value seqNo now).with_ttl ((now + ttl % 2 ^ 64) % 2 ^ 64)) with
      | (.error e, st3) => (.error e, st3)
      | (.ok off, st3) =>
        match st3.applyWriteMod cfg with
        | (.error e, st4) => (.error e, st4)
        | (.ok _, st4) =>
          (.ok (), { st4 with index := fun k =>
            (if k = key then some (LogIndex.mk st4.activeId (value.length % 2 ^ 32) off)
             else st4.index k) })

/-- `KVStore::remove`: a no-op for an unindexed key; otherwise append a
tombstone (no rotation check in the source), apply the durability policy,
and remove the index entry. -/
def KVStore.remove (cfg : Config) (now : Nat) (key : List Nat) (st : KVStore) :
    Except TErr Unit × KVStore :=
  match st.index key with
  | none => (.ok (), st)
  | some _ =>
    match st.next_seq_no with
    | (.error e, st1) => (.error e, st1)
    | (.ok seqNo, st1) =>
      match st1.write_entry (LogEntry.new_tombstone key seqNo now) with
      | (.error e, st2) => (.error e, st2)
      | (.ok _, st2) =>
        match st2.applyWriteMod cfg with
        | (.error e, st3) => (.error e, st3)
        | (.ok _, st3) =>
          (.ok (), { st3 with index := fun k => if k = key then none else st3.index k })

/-- Contents of an archived file from the `file_map` (Rust indexes the map
and would panic on a missing id; reachable states always contain it). -/
def KVStore.lookupArchive (st : KVStore) (fid : Nat) : List Nat :=
  match st.archives.find? (fun p => p.1 == fid) with
  | some p => p.2
  | none => []

/-- `KVStore::get`: index lookup (absent → `None`), positional read from the
active file through the writer's handle or from the archive map, full record
decode under the configured limits (a clean EOF at an indexed offset is an
`UnexpectedEof` error), then the lazy TTL check: `now > expire_at` →
`None` with the index entry left in place (`get` never mutates). -/
def KVStore.get (cfg : Config) (now : Nat) (key : List Nat) (st : KVStore) :
    Except TErr (Option LogEntry) :=
  match st.index key with
  | none => .ok none
  | some li =>
    let content := if li.file_id = st.activeId then st.activeContent
                   else st.lookupArchive li.file_id
    match decode_from cfg.max_key_size cfg.max_val_size (content.drop li.offset) with
    | .error e => .error e
    | .ok none => .error (.ioErr .unexpectedEof)
    | .ok (some (entry, _)) =>
      match entry.expire_at with
      | some exp => if now > exp then .ok none else .ok (some entry)
      | none => .ok (some entry)

/-- `KVStore::new` on a data directory holding at most one data file
`0001.bs` whose length is below `max_file_size` (also the empty-directory
case): the file is reused as the active file, the writer starts at its
length, the index is empty and the sequence counter is 0. -/
def openSingle (content : List Nat) : KVStore :=
  { activeId := 1, activeContent := content, activeSynced := content.length,
    wbuf := [], wOffset := content.length, archives := [],
    index := fun _ => none, seq := 0, faults := [] }

/-- Writer/state alignment: the tracked offset equals the bytes already in
the file plus the bytes pending in the user-space buffer.  Every reachable
state satisfies this. -/
def stAligned (st : KVStore) : Prop :=
  st.wOffset = st.activeContent.length + st.wbuf.length

/-! ### Recovery scanner -/

/-- Result of scanning one file during restore: the updated index and
sequence counter, the truncation point when corruption (or an incomplete
body) was found, and a fatal error when a non-corruption error surfaced. -/
structure ScanOut where
  index : List Nat → Option LogIndex
  seq : Nat
  trunc : Option Nat
  fatal : Option TErr

/-- The per-file scan loop of `KVStore::restore` (the fuel is structural and
bounds the iteration count; `restoreFile` supplies `content.length + 1`,
which always suffices because every round consumes at least one byte).  Each
round records the record-start offset, decodes the header and key, pre-checks
that `body CRC + value_len` fits inside the snapshotted file length
(truncating at the record start when it does not), folds the sequence number
with `max`, applies the tombstone/insert to the index, and skips the body.
A clean EOF ends the file; a corruption-class error truncates at the record
start; any other error is fatal. -/
def scanGo (mk mv fid : Nat) (content : List Nat) :
    Nat → Nat → (List Nat → Option LogIndex) → Nat → ScanOut
  | 0, _, idx, seq => ⟨idx, seq, none, none⟩
  | fuel + 1, offset, idx, seq =>
    match decode_header_and_key mk mv (content.drop offset) with
    | .ok none => ⟨idx, seq, none, none⟩
    | .error e =>
      if corruptionClass e then ⟨idx, seq, some offset, none⟩
      else ⟨idx, seq, none, some e⟩
    | .ok (some (hd, rest)) =>
      let current_pos := offset + ((content.drop offset).length - rest.length)
      let body_len := 4 + hd.val_len
      if current_pos + body_len > content.length then ⟨idx, seq, some offset, none⟩
      else
        scanGo mk mv fid content fuel (current_pos + body_len)
          (if hd.entry_type &&& 1 ≠ 0 then (fun k => if k = hd.key then none else idx k)
           else (fun k =>
             (if k = hd.key then some (LogIndex.mk fid hd.val_len offset) else idx k)))
          (max seq hd.sequence_number)

/-- Scan one file of `KVStore::restore`: run the loop from offset 0 over the
file's content (through the writer's handle for the active file, through the
stored read handle otherwise), apply the resulting index/sequence updates,
and perform the truncation: `set_len` plus `writer.set_offset` for the
active file, reopen-and-`set_len` for an archive. -/
def KVStore.restoreFile (mk mv : Nat) (st : KVStore) (fid : Nat) :
    Except TErr Unit × KVStore :=
  let content := if fid = st.activeId then st.activeContent else st.lookupArchive fid
  let out := scanGo mk mv fid content (content.length + 1) 0 st.index st.seq
  let st1 := { st with index := out.index, seq := out.seq }
  match out.fatal with
  | some e => (.error e, st1)
  | none =>
    match out.trunc with
    | none => (.ok (), st1)
    | some o =>
      if fid = st.activeId then
        (.ok (), { st1 with activeContent := st1.activeContent.take o,
                            activeSynced := min st1.activeSynced o,
                            wOffset := o })
      else
        (.ok (), { st1 with archives := st1.archives.map (fun p =>
          (if p.1 = fid then (p.1, p.2.take o) else p)) })

/-- Insertion sort used to model the ascending `file_ids.sort()`. -/
def insertSorted (x : Nat) : List Nat → List Nat
  | [] => [x]
  | y :: ys => if x ≤ y then x :: y :: ys else y :: insertSorted x ys

def sortIds (l : List Nat) : List Nat :=
  l.foldr insertSorted []

def KVStore.restoreGo (mk mv : Nat) : List Nat → KVStore → Except TErr Unit × KVStore
  | [], st => (.ok (), st)
  | fid :: fids, st =>
    match KVStore.restoreFile mk mv st fid with
    | (.error e, st1) => (.error e, st1)
    | (.ok _, st1) => KVStore.restoreGo mk mv fids st1

/-- `KVStore::restore`: scan the archived files in ascending id order and
the active file last, sharing the index, the running maximum sequence
number, and the decoder limits across files. -/
def KVStore.restore (cfg : Config) (st : KVStore) : Except TErr Unit × KVStore :=
  KVStore.restoreGo cfg.max_key_size cfg.max_val_size
    (sortIds (st.archives.map Prod.fst) ++ [st.activeId]) st

/-! ### Replay semantics of a log -/

/-- Concatenated encoding of a list of records (the byte content of a log
file produced by appending them in order). -/
def concatEnc : List LogEntry → List Nat
  | [] => []
  | e :: tl => e.encode_to ++ concatEnc tl

/-- The maximal prefix of records that fit entirely within `n` bytes. -/
def fitRecords : List LogEntry → Nat → List LogEntry
  | [], _ => []
  | e :: tl, n =>
    if e.encode_to.length ≤ n then e :: fitRecords tl (n - e.encode_to.length) else []

/-- Replay a record list into an index map, tracking each record's start
offset from `base`: tombstones remove their key, other records point their
key at `(fid, offset, value length)`. -/
def replayIdx (fid : Nat) : Nat → (List Nat → Option LogIndex) → List LogEntry →
    (List Nat → Option LogIndex)
  | _, idx, [] => idx
  | base, idx, e :: tl =>
    replayIdx fid (base + e.encode_to.length)
      (if e.entry_type &&& 1 ≠ 0 then (fun k => if k = e.key then none else idx k)
       else (fun k =>
         (if k = e.key then some (LogIndex.mk fid (e.value.length % 2 ^ 32) base)
          else idx k))) tl

/-- Fold of `max` over the sequence numbers of a record list. -/
def replaySeq : Nat → List LogEntry → Nat
  | seq, [] => seq
  | seq, e :: tl => replaySeq (max seq e.sequence_number) tl

/-- The last record for key `k` (preferring later records) together with its
start offset counted from `base`. -/
def lastFor (k : List Nat) : Nat → List LogEntry → Option (LogEntry × Nat)
  | _, [] => none
  | base, e :: tl =>
    match lastFor k (base + e.encode_to.length) tl with
    | some r => some r
    | none => if e.key = k then some (e, base) else none

/-- The state produced by recovering a single data file that replays to the
record list `fitRecords es len`: content truncated to exactly those records,
offsets at their end, index and sequence number replayed from scratch. -/
def replayedStore (es : List LogEntry) (len : Nat) : KVStore :=
  { activeId := 1,
    activeContent := concatEnc (fitRecords es len),
    activeSynced := (concatEnc (fitRecords es len)).length,
    wbuf := [],
    wOffset := (concatEnc (fitRecords es len)).length,
    archives := [],
    index := replayIdx 1 0 (fun _ => none) (fitRecords es len),
    seq := replaySeq 0 (fitRecords es len),
    faults := [] }

/-! ### Varint lemmas -/

theorem encode_varint_go_irrel (n : Nat) : ∀ f g, n ≤ f → n ≤ g →
    encode_varint_go f n = encode_varint_go g n := by
  induction n using Nat.strong_induction_on with
  | _ n ih =>
    intro f g hf hg
    have hshift : n >>> 7 = n / 128 := by
      simp [Nat.shiftRight_eq_div_pow]
    match f, g with
    | 0, 0 => rfl
    | 0, g + 1 =>
      have hn : n = 0 := Nat.le_zero.mp hf
      subst hn; simp [encode_varint_go]
    | f + 1, 0 =>
      have hn : n = 0 := Nat.le_zero.mp hg
      subst hn; simp [encode_varint_go]
    | f + 1, g + 1 =>
      simp only [encode_varint_go]
      by_cases h7 : n >>> 7 = 0
      · simp [h7]
      · simp only [h7, if_false]
        have hn : 0 < n := by
          rcases Nat.eq_zero_or_pos n with h0 | h0
          · exact absurd (by simp [h0, hshift]) h7
          · exact h0
        have hlt : n >>> 7 < n := by
          rw [hshift]; exact Nat.div_lt_self hn (by norm_num)
        rw [ih (n >>> 7) hlt f g (by omega) (by omega)]

theorem encode_varint_unfold (n : Nat) :
    encode_varint n = if n >>> 7 = 0 then [n &&& 127]
      else (n &&& 127 ||| 128) :: encode_varint (n >>> 7) := by
  by_cases h7 : n >>> 7 = 0
  · simp only [h7, if_true]
    match n with
    | 0 => rfl
    | n + 1 => simp [encode_varint, encode_varint_go, h7]
  · have hn : 0 < n := by
      rcases Nat.eq_zero_or_pos n with h0 | h0
      · exact absurd (by simp [h0, Nat.shiftRight_eq_div_pow]) h7
      · exact h0
    have hlt : n >>> 7 < n := by
      rw [Nat.shiftRight_eq_div_pow]
      exact Nat.div_lt_self hn (by norm_num)
    simp only [h7, if_false]
    match n, hn with
    | n + 1, _ =>
      simp only [encode_varint, encode_varint_go, h7, if_false]
      congr 1
      exact encode_varint_go_irrel _ _ _ (by omega) (Nat.le_refl _)

theorem shiftRight7_eq_zero_iff (n : Nat) : n >>> 7 = 0 ↔ n < 128 := by
  rw [Nat.shiftRight_eq_div_pow]
  show n / 128 = 0 ↔ n < 128
  omega

theorem and127_eq_mod (n : Nat) : n &&& 127 = n % 128 := by
  have := Nat.and_pow_two_sub_one_eq_mod n 7
  norm_num at this
  exact this

theorem encode_varint_ne_nil (n : Nat) : encode_varint n ≠ [] := by
  rw [encode_varint_unfold]
  by_cases h : n >>> 7 = 0 <;> simp [h]

theorem encode_varint_bytes_lt (n : Nat) : ∀ b ∈ encode_varint n, b < 256 := by
  induction n using Nat.strong_induction_on with
  | _ n ih =>
    rw [encode_varint_unfold]
    have hand : n &&& 127 < 128 := by
      rw [and127_eq_mod]; exact Nat.mod_lt _ (by norm_num)
    by_cases h7 : n >>> 7 = 0
    · simp only [h7, if_true]
      intro b hb
      simp at hb
      omega
    · simp only [h7, if_false]
      intro b hb
      rcases List.mem_cons.mp hb with rfl | hb
      · have : n &&& 127 ||| 128 < 256 := by
          apply Nat.or_lt_two_pow (n := 8) <;> omega
        omega
      · have hn : 0 < n := by
          rcases Nat.eq_zero_or_pos n with h0 | h0
          · exact absurd (by simp [h0, Nat.shiftRight_eq_div_pow]) h7
          · exact h0
        have hlt : n >>> 7 < n := by
          rw [Nat.shiftRight_eq_div_pow]; exact Nat.div_lt_self hn (by norm_num)
        exact ih _ hlt b hb

theorem encode_varint_length_le (n k : Nat) (hk : 1 ≤ k) (hn : n < 2 ^ (7 * k)) :
    (encode_varint n).length ≤ k := by
  induction k generalizing n with
  | zero => omega
  | succ k ihk =>
    rw [encode_varint_unfold]
    by_cases h7 : n >>> 7 = 0
    · simp [h7]
    · simp only [h7, if_false, List.length_cons]
      rcases Nat.eq_zero_or_pos k with rfl | hkpos
      · exfalso
        rw [shiftRight7_eq_zero_iff] at h7
        norm_num at hn
        omega
      · have hdiv : n >>> 7 < 2 ^ (7 * k) := by
          rw [Nat.shiftRight_eq_div_pow]
          have : n < 2 ^ (7 * k) * 2 ^ 7 := by
            rw [← Nat.pow_add]
            have : 7 * k + 7 = 7 * (k + 1) := by ring
            rw [this]; exact hn
          norm_num at this ⊢
          omega
        have := ihk (n >>> 7) hkpos hdiv
        omega

theorem or128_eq_add (x : Nat) (h : x < 128) : x ||| 128 = x + 128 := by
  have h2 : (128 : Nat) = 2 ^ 7 * 1 := by norm_num
  calc x ||| 128 = 128 ||| x := Nat.lor_comm x 128
    _ = 2 ^ 7 * 1 ||| x := by rw [h2]
    _ = 2 ^ 7 * 1 + x := (Nat.mul_add_lt_is_or (by norm_num; omega) 1).symm
    _ = x + 128 := by ring

theorem and_128_eq_zero (x : Nat) (h : x < 128) : x &&& 128 = 0 := by
  apply Nat.eq_of_testBit_eq
  intro i
  rw [Nat.testBit_and]
  have h128 : (128 : Nat) = 2 ^ 7 := by norm_num
  by_cases hi : i = 7
  · subst hi
    have : x.testBit 7 = false := Nat.testBit_lt_two_pow (by norm_num; omega)
    simp [this]
  · have : (128 : Nat).testBit i = false := by
      rw [h128, Nat.testBit_two_pow]
      simp [Ne.symm hi]
    simp [this]

theorem or128_and_127 (x : Nat) (h : x < 128) : (x ||| 128) &&& 127 = x := by
  rw [or128_eq_add x h]
  have : (127 : Nat) = 2 ^ 7 - 1 := by norm_num
  rw [this, Nat.and_pow_two_sub_one_eq_mod]
  norm_num
  omega

theorem or128_and_128 (x : Nat) (h : x < 128) : (x ||| 128) &&& 128 = 128 := by
  rw [or128_eq_add x h]
  apply Nat.eq_of_testBit_eq
  intro i
  rw [Nat.testBit_and]
  have h128 : (128 : Nat) = 2 ^ 7 := by norm_num
  by_cases hi : i = 7
  · subst hi
    have : (x + 128).testBit 7 = true := by
      have := Nat.testBit_mul_two_pow_add_eq 1 x 7
      norm_num at this
      rw [Nat.add_comm] at this
      rw [this]
      simp [Nat.testBit_lt_two_pow (show x < 2 ^ 7 by norm_num; omega)]
    simp [this, h128, Nat.testBit_two_pow_self]
  · have : (128 : Nat).testBit i = false := by
      rw [h128, Nat.testBit_two_pow]
      simp [Ne.symm hi]
    simp [this]

theorem decode_varint_go_enc (w v : Nat) : ∀ (ceil shift result : Nat) (rest : List Nat),
    v * 2 ^ shift < 2 ^ w →
    result < 2 ^ shift →
    shift + 7 * ((encode_varint v).length - 1) ≤ ceil →
    decode_varint_go ceil w (encode_varint v ++ rest) shift result =
      .ok (result + v * 2 ^ shift, rest) := by
  induction v using Nat.strong_induction_on with
  | _ v ih =>
    intro ceil shift result rest hfit hres hceil
    rw [encode_varint_unfold]
    by_cases h7 : v >>> 7 = 0
    · have hv : v < 128 := (shiftRight7_eq_zero_iff v).mp h7
      have hb : v &&& 127 = v := by
        rw [and127_eq_mod]; exact Nat.mod_eq_of_lt hv
      simp only [h7, if_true, List.cons_append, List.nil_append, decode_varint_go]
      have hsh : ¬ shift > ceil := by
        rw [encode_varint_unfold, h7] at hceil
        simp at hceil
        omega
      rw [if_neg hsh]
      simp only [hb, and_128_eq_zero v hv, if_true]
      congr 2
      rw [Nat.shiftLeft_eq, Nat.mod_eq_of_lt hfit]
      calc result ||| v * 2 ^ shift
          = v * 2 ^ shift ||| result := Nat.lor_comm _ _
        _ = 2 ^ shift * v ||| result := by rw [Nat.mul_comm]
        _ = 2 ^ shift * v + result := (Nat.mul_add_lt_is_or hres v).symm
        _ = result + v * 2 ^ shift := by ring
    · have hv : ¬ v < 128 := fun h => h7 ((shiftRight7_eq_zero_iff v).mpr h)
      have hmod : v &&& 127 = v % 128 := and127_eq_mod v
      have hm : v % 128 < 128 := Nat.mod_lt _ (by norm_num)
      have hlen1 : 1 ≤ (encode_varint (v >>> 7)).length :=
        List.length_pos.mpr (encode_varint_ne_nil _)
      have hceil7 : shift + 7 ≤ ceil := by
        rw [encode_varint_unfold] at hceil
        simp only [h7, if_false, List.length_cons] at hceil
        omega
      simp only [h7, if_false, List.cons_append, decode_varint_go]
      rw [if_neg (by omega)]
      simp only [hmod, or128_and_127 _ hm, or128_and_128 _ hm]
      rw [if_neg (by norm_num)]
      have hdrop : (v % 128) <<< shift % 2 ^ w = v % 128 * 2 ^ shift := by
        rw [Nat.shiftLeft_eq]
        apply Nat.mod_eq_of_lt
        calc v % 128 * 2 ^ shift ≤ v * 2 ^ shift :=
              Nat.mul_le_mul_right _ (Nat.mod_le v 128)
          _ < 2 ^ w := hfit
      rw [hdrop]
      have hor : result ||| v % 128 * 2 ^ shift = result + v % 128 * 2 ^ shift := by
        calc result ||| v % 128 * 2 ^ shift
            = v % 128 * 2 ^ shift ||| result := Nat.lor_comm _ _
          _ = 2 ^ shift * (v % 128) ||| result := by rw [Nat.mul_comm]
          _ = 2 ^ shift * (v % 128) + result := (Nat.mul_add_lt_is_or hres (v % 128)).symm
          _ = result + v % 128 * 2 ^ shift := by ring
      rw [hor]
      have hlt : v >>> 7 < v := by
        rw [Nat.shiftRight_eq_div_pow]
        exact Nat.div_lt_self (by omega) (by norm_num)
      have hdm : v >>> 7 * 128 + v % 128 = v := by
        rw [Nat.shiftRight_eq_div_pow]
        show v / 128 * 128 + v % 128 = v
        omega
      have hpow : (2 : Nat) ^ (shift + 7) = 2 ^ shift * 128 := by
        rw [Nat.pow_add]
      rw [ih (v >>> 7) hlt ceil (shift + 7) (result + v % 128 * 2 ^ shift) rest
        (by rw [hpow]
            calc v >>> 7 * (2 ^ shift * 128) = v >>> 7 * 128 * 2 ^ shift := by ring
              _ ≤ v * 2 ^ shift := Nat.mul_le_mul_right _ (by omega)
              _ < 2 ^ w := hfit)
        (by rw [hpow]
            have : v % 128 * 2 ^ shift ≤ 127 * 2 ^ shift :=
              Nat.mul_le_mul_right _ (by omega)
            have hpos : 0 < 2 ^ shift := Nat.pos_pow_of_pos _ (by norm_num)
            calc result + v % 128 * 2 ^ shift < 2 ^ shift + 127 * 2 ^ shift := by omega
              _ = 2 ^ shift * 128 := by ring)
        (by rw [encode_varint_unfold] at hceil
            simp only [h7, if_false, List.length_cons] at hceil
            omega)]
      congr 2
      calc result + v % 128 * 2 ^ shift + v >>> 7 * 2 ^ (shift + 7)
          = result + (v >>> 7 * 128 + v % 128) * 2 ^ shift := by rw [hpow]; ring
        _ = result + v * 2 ^ shift := by rw [hdm]

theorem decode_varint32_enc (v : Nat) (hv : v < 2 ^ 32) (rest : List Nat) :
    decode_varint32 (encode_varint v ++ rest) = .ok (v, rest) := by
  have hlen : (encode_varint v).length ≤ 5 :=
    encode_varint_length_le v 5 (by norm_num) (by norm_num; omega)
  have := decode_varint_go_enc 32 v 28 0 0 rest (by norm_num; omega) (by norm_num) (by omega)
  simpa [decode_varint32] using this

theorem decode_varint64_enc (v : Nat) (hv : v < 2 ^ 64) (rest : List Nat) :
    decode_varint64 (encode_varint v ++ rest) = .ok (v, rest) := by
  have hlen : (encode_varint v).length ≤ 10 :=
    encode_varint_length_le v 10 (by norm_num) (by norm_num; omega)
  have := decode_varint_go_enc 64 v 63 0 0 rest (by norm_num; omega) (by norm_num) (by omega)
  simpa [decode_varint64] using this

theorem decode_varint_go_enc_trunc (w v : Nat) : ∀ (ceil shift result m : Nat),
    m < (encode_varint v).length →
    shift + 7 * ((encode_varint v).length - 1) ≤ ceil →
    decode_varint_go ceil w ((encode_varint v).take m) shift result =
      .error (.ioErr .unexpectedEof) := by
  induction v using Nat.strong_induction_on with
  | _ v ih =>
    intro ceil shift result m hm hceil
    rw [encode_varint_unfold] at hm hceil ⊢
    by_cases h7 : v >>> 7 = 0
    · simp only [h7, if_true, List.length_singleton] at hm hceil ⊢
      have hm0 : m = 0 := by omega
      subst hm0
      simp only [List.take_zero, decode_varint_go]
      rw [if_neg (by omega)]
    · have hmod : v &&& 127 = v % 128 := and127_eq_mod v
      have hm128 : v % 128 < 128 := Nat.mod_lt _ (by norm_num)
      have hlen1 : 1 ≤ (encode_varint (v >>> 7)).length :=
        List.length_pos.mpr (encode_varint_ne_nil _)
      simp only [h7, if_false, List.length_cons] at hm hceil ⊢
      match m with
      | 0 =>
        simp only [List.take_zero, decode_varint_go]
        rw [if_neg (by omega)]
      | m + 1 =>
        simp only [List.take_succ_cons, decode_varint_go]
        rw [if_neg (by omega)]
        simp only [hmod, or128_and_127 _ hm128, or128_and_128 _ hm128]
        rw [if_neg (by norm_num)]
        have hlt : v >>> 7 < v := by
          rw [Nat.shiftRight_eq_div_pow]
          apply Nat.div_lt_self _ (by norm_num)
          rcases Nat.eq_zero_or_pos v with h0 | h0
          · exact absurd (by simp [h0, Nat.shiftRight_eq_div_pow]) h7
          · exact h0
        exact ih (v >>> 7) hlt ceil (shift + 7) _ m (by omega) (by omega)

theorem decode_varint_go_vde (ceil w : Nat) : ∀ (s : List Nat) (shift result : Nat),
    (decode_varint_go ceil w s shift result = .error .VarintDecodeError ↔
      vdeNeed ceil shift ≤ s.length ∧ ∀ b ∈ s.take (vdeNeed ceil shift), b &&& 128 ≠ 0) := by
  intro s
  induction s with
  | nil =>
    intro shift result
    by_cases hs : shift > ceil
    · have hv : vdeNeed ceil shift = 0 := by unfold vdeNeed; omega
      simp [decode_varint_go, hs, hv]
    · have hv : 1 ≤ vdeNeed ceil shift := by unfold vdeNeed; omega
      simp only [decode_varint_go, if_neg hs]
      constructor
      · intro h; exact absurd h (by simp)
      · intro ⟨h1, _⟩; simp at h1; omega
  | cons b rest ihs =>
    intro shift result
    by_cases hs : shift > ceil
    · have hv : vdeNeed ceil shift = 0 := by unfold vdeNeed; omega
      simp [decode_varint_go, hs, hv]
    · have hv : vdeNeed ceil shift = vdeNeed ceil (shift + 7) + 1 := by
        unfold vdeNeed; omega
      simp only [decode_varint_go, if_neg hs]
      by_cases hb : b &&& 128 = 0
      · simp only [hb, if_true]
        constructor
        · intro h; exact absurd h (by simp)
        · intro ⟨_, h2⟩
          exfalso
          refine h2 b ?_ hb
          rw [hv, List.take_succ_cons]
          exact List.mem_cons_self _ _
      · simp only [hb, if_false]
        rw [ihs (shift + 7) _, hv, List.take_succ_cons]
        simp only [List.length_cons, List.mem_cons]
        constructor
        · intro ⟨h1, h2⟩
          refine ⟨by omega, ?_⟩
          intro x hx
          rcases hx with rfl | hx
          · exact hb
          · exact h2 x hx
        · intro ⟨h1, h2⟩
          exact ⟨by omega, fun x hx => h2 x (Or.inr hx)⟩

theorem leb128Val_encode_varint (v : Nat) : leb128Val (encode_varint v) = v := by
  induction v using Nat.strong_induction_on with
  | _ v ih =>
    rw [encode_varint_unfold]
    by_cases h7 : v >>> 7 = 0
    · have hv : v < 128 := (shiftRight7_eq_zero_iff v).mp h7
      simp [h7, leb128Val, and127_eq_mod, Nat.mod_eq_of_lt hv]
    · have hv : ¬ v < 128 := fun h => h7 ((shiftRight7_eq_zero_iff v).mpr h)
      have hm128 : v % 128 < 128 := Nat.mod_lt _ (by norm_num)
      have hlt : v >>> 7 < v := by
        rw [Nat.shiftRight_eq_div_pow]
        exact Nat.div_lt_self (by omega) (by norm_num)
      simp only [h7, if_false, leb128Val]
      rw [ih (v >>> 7) hlt, and127_eq_mod v, or128_and_127 _ hm128]
      rw [Nat.shiftRight_eq_div_pow]
      show v % 128 + 128 * (v / 128) = v
      omega

theorem encode_varint_high_bit (v : Nat) : ∀ i, i < (encode_varint v).length →
    ((encode_varint v).getD i 0 &&& 128 ≠ 0 ↔ i + 1 < (encode_varint v).length) := by
  induction v using Nat.strong_induction_on with
  | _ v ih =>
    intro i h
    rw [encode_varint_unfold] at h ⊢
    by_cases h7 : v >>> 7 = 0
    · have hv : v < 128 := (shiftRight7_eq_zero_iff v).mp h7
      simp only [h7, if_true, List.length_singleton] at h ⊢
      have hi : i = 0 := by omega
      subst hi
      simp only [List.getD_cons_zero]
      rw [and127_eq_mod, Nat.mod_eq_of_lt hv]
      simp [and_128_eq_zero v hv]
    · have hm128 : v % 128 < 128 := Nat.mod_lt (y := 128) _ (by norm_num)
      have hlt : v >>> 7 < v := by
        rw [Nat.shiftRight_eq_div_pow]
        apply Nat.div_lt_self _ (by norm_num)
        rcases Nat.eq_zero_or_pos v with h0 | h0
        · exact absurd (by simp [h0, Nat.shiftRight_eq_div_pow]) h7
        · exact h0
      have hlen1 : 1 ≤ (encode_varint (v >>> 7)).length :=
        List.length_pos.mpr (encode_varint_ne_nil _)
      simp only [h7, if_false, List.length_cons] at h ⊢
      match i with
      | 0 =>
        simp only [List.getD_cons_zero]
        rw [and127_eq_mod v, or128_and_128 _ hm128]
        simp
        omega
      | i + 1 =>
        simp only [List.getD_cons_succ]
        have := ih (v >>> 7) hlt i (by omega)
        simpa using this

/-! ### Reader and CRC lemmas -/

theorem readExact_append (k : Nat) (xs r : List Nat) (h : xs.length = k) :
    readExact k (xs ++ r) = .ok (xs, r) := by
  subst h
  unfold readExact
  rw [if_neg (by simp)]
  rw [List.take_left, List.drop_left]

theorem readExact_eof (k : Nat) (s : List Nat) (h : s.length < k) :
    readExact k s = .error (.ioErr .unexpectedEof) := by
  simp [readExact, h]

theorem readExact_length {k : Nat} {s xs r : List Nat}
    (h : readExact k s = .ok (xs, r)) : r.length + k ≤ s.length ∧ xs.length = k := by
  unfold readExact at h
  split at h
  · exact absurd h (by simp)
  · simp only [Except.ok.injEq, Prod.mk.injEq] at h
    obtain ⟨h1, h2⟩ := h
    subst h1; subst h2
    rename_i hlen
    constructor
    · simp; omega
    · simp; omega

theorem leVal4_leBytes (c : Nat) :
    leVal4 (c % 256) (c / 256 % 256) (c / 65536 % 256) (c / 16777216 % 256) = c % 2 ^ 32 := by
  unfold leVal4
  have h32 : (2 : Nat) ^ 32 = 4294967296 := by norm_num
  rw [h32]
  omega

theorem readU32LE_leBytes (c : Nat) (r : List Nat) :
    readU32LE (leBytes4 c ++ r) = .ok (c % 2 ^ 32, r) := by
  simp only [leBytes4, List.cons_append, List.nil_append, readU32LE, leVal4_leBytes]

theorem readU32LE_eof (s : List Nat) (h : s.length < 4) :
    readU32LE s = .error (.ioErr .unexpectedEof) := by
  match s with
  | [] => rfl
  | [_] => rfl
  | [_, _] => rfl
  | [_, _, _] => rfl
  | _ :: _ :: _ :: _ :: _ => simp at h; omega

theorem readU32LE_length {s : List Nat} {v : Nat} {r : List Nat}
    (h : readU32LE s = .ok (v, r)) : r.length + 4 = s.length := by
  match s with
  | [] => exact absurd h (by simp [readU32LE])
  | [_] => exact absurd h (by simp [readU32LE])
  | [_, _] => exact absurd h (by simp [readU32LE])
  | [_, _, _] => exact absurd h (by simp [readU32LE])
  | _ :: _ :: _ :: _ :: t =>
    simp only [readU32LE, Except.ok.injEq, Prod.mk.injEq] at h
    obtain ⟨_, h2⟩ := h
    subst h2
    simp

theorem crc32_step_lt (c : Nat) (h : c < 2 ^ 32) : crc32_step c < 2 ^ 32 := by
  unfold crc32_step
  split
  · exact Nat.xor_lt_two_pow (by omega) (by norm_num)
  · omega

theorem crc32_iter_lt (n x : Nat) (h : x < 2 ^ 32) : crc32_step^[n] x < 2 ^ 32 := by
  induction n generalizing x with
  | zero => simpa using h
  | succ n ihn =>
    rw [Function.iterate_succ_apply]
    exact ihn _ (crc32_step_lt _ h)

theorem crc32_byte_lt (c b : Nat) (hc : c < 2 ^ 32) (hb : b < 2 ^ 32) :
    crc32_byte c b < 2 ^ 32 := by
  unfold crc32_byte
  exact crc32_iter_lt 8 _ (Nat.xor_lt_two_pow hc hb)

theorem crc32_update_lt (l : List Nat) : ∀ c, c < 2 ^ 32 → (∀ b ∈ l, b < 2 ^ 32) →
    crc32_update c l < 2 ^ 32 := by
  induction l with
  | nil => intro c hc _; simpa [crc32_update] using hc
  | cons b t iht =>
    intro c hc hb
    have h1 : crc32_byte c b < 2 ^ 32 :=
      crc32_byte_lt c b hc (hb b (List.mem_cons_self _ _))
    have := iht (crc32_byte c b) h1 (fun x hx => hb x (List.mem_cons_of_mem _ hx))
    simpa [crc32_update] using this

theorem crc32_lt (l : List Nat) (hl : ∀ b ∈ l, b < 2 ^ 32) : crc32 l < 2 ^ 32 := by
  unfold crc32
  exact Nat.xor_lt_two_pow (crc32_update_lt l _ (by norm_num) hl) (by norm_num)

theorem goodEntry_spec {mk mv : Nat} {e : LogEntry} (h : goodEntry mk mv e = true) :
    e.entry_type < 256 ∧ (∀ b ∈ e.key, b < 256) ∧ (∀ b ∈ e.value, b < 256) ∧
    e.sequence_number < 2 ^ 64 ∧ e.created_at < 2 ^ 64 ∧
    (∀ ts, e.expire_at = some ts → ts < 2 ^ 64) ∧
    (e.expire_at = none → e.entry_type &&& 4 = 0) ∧
    (∀ ts, e.expire_at = some ts → e.entry_type &&& 4 ≠ 0) ∧
    utf8Valid e.key = true ∧ e.key.length ≤ mk % 2 ^ 32 ∧ e.value.length ≤ mv % 2 ^ 32 := by
  unfold goodEntry wfEntry at h
  cases hx : e.expire_at with
  | none =>
    rw [hx] at h
    simp only [Bool.and_eq_true, decide_eq_true_eq, List.all_eq_true] at h
    obtain ⟨⟨⟨⟨⟨⟨⟨⟨hd1, hka⟩, hva⟩, hd2⟩, hd3⟩, hM⟩, hutf⟩, hkl⟩, hvl⟩ := h
    refine ⟨hd1, hka, hva, hd2, hd3, ?_, fun _ => hM, ?_, hutf, hkl, hvl⟩
    · intro ts hts
      exact Option.noConfusion hts
    · intro ts hts
      exact Option.noConfusion hts
  | some ts0 =>
    rw [hx] at h
    simp only [Bool.and_eq_true, decide_eq_true_eq, List.all_eq_true] at h
    obtain ⟨⟨⟨⟨⟨⟨⟨⟨hd1, hka⟩, hva⟩, hd2⟩, hd3⟩, hts64, hM⟩, hutf⟩, hkl⟩, hvl⟩ := h
    refine ⟨hd1, hka, hva, hd2, hd3, ?_, ?_, fun ts hts => hM, hutf, hkl, hvl⟩
    · intro ts hts
      cases hts
      exact hts64
    · intro hn
      exact Option.noConfusion hn

/-! ### Decoding an encoded record -/

theorem decode_hk_cons (mk mv : Nat) (s : List Nat) (hne : s ≠ []) :
    decode_header_and_key mk mv s = decodeHeaderBody mk mv s := by
  match s with
  | [] => exact absurd rfl hne
  | _ :: _ => rfl

theorem encode_header_ne_nil (e : LogEntry) : e.encode_header ≠ [] := by
  simp [LogEntry.encode_header, leBytes4]

theorem headerMeta_bytes_lt (e : LogEntry) (het : e.entry_type < 256) :
    ∀ b ∈ e.headerMeta, b < 256 := by
  intro b hb
  unfold LogEntry.headerMeta at hb
  rcases List.mem_cons.mp hb with rfl | hb
  · exact het
  · simp only [List.mem_append] at hb
    rcases hb with ((((hb | hb) | hb) | hb) | hb)
    · exact encode_varint_bytes_lt _ b hb
    · exact encode_varint_bytes_lt _ b hb
    · exact encode_varint_bytes_lt _ b hb
    · exact encode_varint_bytes_lt _ b hb
    · cases hx : e.expire_at with
      | none => rw [hx] at hb; simp at hb
      | some ts => rw [hx] at hb; exact encode_varint_bytes_lt _ b hb

theorem readExpire_enc (e : LogEntry)
    (hts64 : ∀ ts, e.expire_at = some ts → ts < 2 ^ 64)
    (hnone : e.expire_at = none → e.entry_type &&& 4 = 0)
    (hsome : ∀ ts, e.expire_at = some ts → e.entry_type &&& 4 ≠ 0)
    (rest : List Nat) :
    readExpire e.entry_type
      ((match e.expire_at with
        | some ts => encode_varint ts
        | none => []) ++ rest) = .ok (e.expire_at, rest) := by
  cases hx : e.expire_at with
  | none =>
    simp only [hx, List.nil_append, readExpire, hnone hx, ne_eq, not_true_eq_false, if_false]
  | some ts =>
    simp only [hx, readExpire, if_pos (hsome ts hx)]
    rw [decode_varint64_enc ts (hts64 ts hx) rest]

theorem decode_hk_append (mk mv : Nat) (e : LogEntry) (X : List Nat)
    (hg : goodEntry mk mv e = true) :
    decode_header_and_key mk mv (e.encode_header ++ X) = .ok (some (e.toHeader, X)) := by
  obtain ⟨het, hkb, hvb, hs64, hc64, hts64, hnone, hsome, hutf, hkl, hvl⟩ := goodEntry_spec hg
  have hpos : (0 : Nat) < 2 ^ 32 := by norm_num
  have hk32 : e.key.length < 2 ^ 32 := lt_of_le_of_lt hkl (Nat.mod_lt _ hpos)
  have hv32 : e.value.length < 2 ^ 32 := lt_of_le_of_lt hvl (Nat.mod_lt _ hpos)
  have hmodk : e.key.length % 2 ^ 32 = e.key.length := Nat.mod_eq_of_lt hk32
  have hmodv : e.value.length % 2 ^ 32 = e.value.length := Nat.mod_eq_of_lt hv32
  have hbytes : ∀ b ∈ e.headerMeta ++ e.key, b < 2 ^ 32 := by
    intro b hb
    rcases List.mem_append.mp hb with hb | hb
    · exact lt_of_lt_of_le (headerMeta_bytes_lt e het b hb) (by norm_num)
    · exact lt_of_lt_of_le (hkb b hb) (by norm_num)
  have hcrc : crc32 (e.headerMeta ++ e.key) < 2 ^ 32 := crc32_lt _ hbytes
  have hcond : ¬ (e.key.length > mk % 2 ^ 32 ∨ e.value.length > mv % 2 ^ 32) := by
    push_neg
    exact ⟨hkl, hvl⟩
  have hne : e.encode_header ++ X ≠ [] := by
    intro h0
    exact encode_header_ne_nil e (List.append_eq_nil.mp h0).1
  rw [decode_hk_cons _ _ _ hne]
  unfold decodeHeaderBody
  simp only [LogEntry.encode_header, LogEntry.headerMeta, hmodk, hmodv,
    List.cons_append, List.append_assoc, readU32LE_leBytes, Nat.mod_eq_of_lt hcrc,
    readU8, decode_varint64_enc e.created_at hc64, decode_varint64_enc e.sequence_number hs64,
    decode_varint32_enc e.key.length hk32, decode_varint32_enc e.value.length hv32,
    if_neg hcond, readExpire_enc e hts64 hnone hsome,
    readExact_append e.key.length e.key _ rfl]
  simp only [LogEntry.toHeader, hutf, LogEntry.headerMeta]
  have hcrc2 : crc32 (e.entry_type ::
      (encode_varint e.created_at ++ (encode_varint e.sequence_number ++
        (encode_varint e.key.length ++ (encode_varint e.value.length ++
          ((match e.expire_at with
            | some ts => encode_varint ts
            | none => []) ++ e.key)))))) < 4294967296 := by
    have h2 := hcrc
    simp only [LogEntry.headerMeta, hmodk, hmodv, List.cons_append, List.append_assoc] at h2
    norm_num at h2
    exact h2
  simp [Nat.mod_eq_of_lt hcrc2]

theorem decode_from_append (mk mv : Nat) (e : LogEntry) (X : List Nat)
    (hg : goodEntry mk mv e = true) :
    decode_from mk mv (e.encode_to ++ X) = .ok (some (e, X)) := by
  obtain ⟨het, hkb, hvb, hs64, hc64, hts64, hnone, hsome, hutf, hkl, hvl⟩ := goodEntry_spec hg
  have hvbytes : ∀ b ∈ e.value, b < 2 ^ 32 := fun b hb =>
    lt_of_lt_of_le (hvb b hb) (by norm_num)
  have hbcrc : crc32 e.value < 2 ^ 32 := crc32_lt _ hvbytes
  unfold decode_from LogEntry.encode_to
  rw [List.append_assoc, List.append_assoc, decode_hk_append mk mv e _ hg]
  simp only [LogEntry.toHeader, readU32LE_leBytes, Nat.mod_eq_of_lt hbcrc,
    readExact_append e.value.length e.value _ rfl, ne_eq, not_true_eq_false, if_false]

/-! ### Decoding a truncated record -/

theorem readU32LE_take_ge (c : Nat) (rest : List Nat) (m : Nat) (h : 4 ≤ m) :
    readU32LE ((leBytes4 c ++ rest).take m) = .ok (c % 2 ^ 32, rest.take (m - 4)) := by
  rw [List.take_append_eq_append_take,
    List.take_of_length_le (by simp [leBytes4]; omega)]
  have h4 : (leBytes4 c).length = 4 := by simp [leBytes4]
  rw [h4, readU32LE_leBytes]

theorem readU32LE_take_lt (l : List Nat) (m : Nat) (h : m < 4) :
    readU32LE (l.take m) = .error (.ioErr .unexpectedEof) := by
  apply readU32LE_eof
  have := List.length_take_le m l
  omega

theorem readU8_take_pos (b : Nat) (rest : List Nat) (m : Nat) (h : 1 ≤ m) :
    readU8 ((b :: rest).take m) = .ok (b, rest.take (m - 1)) := by
  match m, h with
  | m + 1, _ =>
    rw [List.take_succ_cons]
    rfl

theorem varint64_take_ge (v : Nat) (hv : v < 2 ^ 64) (rest : List Nat) (m : Nat)
    (h : (encode_varint v).length ≤ m) :
    decode_varint64 ((encode_varint v ++ rest).take m) =
      .ok (v, rest.take (m - (encode_varint v).length)) := by
  rw [List.take_append_eq_append_take, List.take_of_length_le h]
  exact decode_varint64_enc v hv _

theorem varint64_take_lt (v : Nat) (hv : v < 2 ^ 64) (rest : List Nat) (m : Nat)
    (h : m < (encode_varint v).length) :
    decode_varint64 ((encode_varint v ++ rest).take m) = .error (.ioErr .unexpectedEof) := by
  rw [List.take_append_eq_append_take, Nat.sub_eq_zero_of_le (by omega), List.take_zero,
    List.append_nil]
  have hlen : (encode_varint v).length ≤ 10 :=
    encode_varint_length_le v 10 (by norm_num) (by norm_num; omega)
  exact decode_varint_go_enc_trunc 64 v 63 0 0 m h (by omega)

theorem varint32_take_ge (v : Nat) (hv : v < 2 ^ 32) (rest : List Nat) (m : Nat)
    (h : (encode_varint v).length ≤ m) :
    decode_varint32 ((encode_varint v ++ rest).take m) =
      .ok (v, rest.take (m - (encode_varint v).length)) := by
  rw [List.take_append_eq_append_take, List.take_of_length_le h]
  exact decode_varint32_enc v hv _

theorem varint32_take_lt (v : Nat) (hv : v < 2 ^ 32) (rest : List Nat) (m : Nat)
    (h : m < (encode_varint v).length) :
    decode_varint32 ((encode_varint v ++ rest).take m) = .error (.ioErr .unexpectedEof) := by
  rw [List.take_append_eq_append_take, Nat.sub_eq_zero_of_le (by omega), List.take_zero,
    List.append_nil]
  have hlen : (encode_varint v).length ≤ 5 :=
    encode_varint_length_le v 5 (by norm_num) (by norm_num; omega)
  exact decode_varint_go_enc_trunc 32 v 28 0 0 m h (by omega)

theorem readExact_take_ge (k : Nat) (xs rest : List Nat) (hx : xs.length = k) (m : Nat)
    (h : k ≤ m) :
    readExact k ((xs ++ rest).take m) = .ok (xs, rest.take (m - k)) := by
  subst hx
  rw [List.take_append_eq_append_take, List.take_of_length_le h]
  exact readExact_append _ _ _ rfl

theorem readExact_take_lt (k : Nat) (l : List Nat) (m : Nat) (h : m < k) :
    readExact k (l.take m) = .error (.ioErr .unexpectedEof) := by
  apply readExact_eof
  have := List.length_take_le m l
  omega

theorem take_ne_nil_of_pos {l : List Nat} {m : Nat} (hm : 0 < m) (hl : l ≠ []) :
    l.take m ≠ [] := by
  intro h0
  rcases List.take_eq_nil_iff.mp h0 with h | h
  · omega
  · exact hl h

theorem decode_hk_take_eof (mk mv : Nat) (e : LogEntry) (m : Nat)
    (hg : goodEntry mk mv e = true) (hm0 : 0 < m) (hm : m < e.encode_header.length) :
    decode_header_and_key mk mv (e.encode_header.take m) = .error (.ioErr .unexpectedEof) := by
  obtain ⟨het, hkb, hvb, hs64, hc64, hts64, hnone, hsome, hutf, hkl, hvl⟩ := goodEntry_spec hg
  have hpos : (0 : Nat) < 2 ^ 32 := by norm_num
  have hk32 : e.key.length < 2 ^ 32 := lt_of_le_of_lt hkl (Nat.mod_lt _ hpos)
  have hv32 : e.value.length < 2 ^ 32 := lt_of_le_of_lt hvl (Nat.mod_lt _ hpos)
  have hmodk : e.key.length % 2 ^ 32 = e.key.length := Nat.mod_eq_of_lt hk32
  have hmodv : e.value.length % 2 ^ 32 = e.value.length := Nat.mod_eq_of_lt hv32
  have hcond : ¬ (e.key.length > mk % 2 ^ 32 ∨ e.value.length > mv % 2 ^ 32) := by
    push_neg
    exact ⟨hkl, hvl⟩
  have hne : e.encode_header.take m ≠ [] :=
    take_ne_nil_of_pos hm0 (encode_header_ne_nil e)
  have hlen : e.encode_header.length = 4 + (1 + (encode_varint e.created_at).length +
      (encode_varint e.sequence_number).length + (encode_varint e.key.length).length +
      (encode_varint e.value.length).length +
      (match e.expire_at with
       | some ts => encode_varint ts
       | none => ([] : List Nat)).length) + e.key.length := by
    simp only [LogEntry.encode_header, LogEntry.headerMeta, hmodk, hmodv, List.length_append,
      List.length_cons, leBytes4, List.length_nil]
    simp
    omega
  rw [decode_hk_cons _ _ _ hne]
  unfold decodeHeaderBody
  simp only [LogEntry.encode_header, LogEntry.headerMeta, hmodk, hmodv,
    List.cons_append, List.append_assoc]
  by_cases h1 : m < 4
  · simp only [readU32LE_take_lt _ _ h1]
  · simp only [readU32LE_take_ge _ _ _ (by omega : 4 ≤ m)]
    by_cases h2 : m - 4 < 1
    · have h20 : m - 4 = 0 := by omega
      simp only [h20, List.take_zero, readU8]
    · simp only [readU8_take_pos _ _ _ (by omega : 1 ≤ m - 4)]
      by_cases h3 : m - 4 - 1 < (encode_varint e.created_at).length
      · simp only [varint64_take_lt _ hc64 _ _ h3]
      · simp only [varint64_take_ge _ hc64 _ _ (by omega :
          (encode_varint e.created_at).length ≤ m - 4 - 1)]
        by_cases h4 : m - 4 - 1 - (encode_varint e.created_at).length <
            (encode_varint e.sequence_number).length
        · simp only [varint64_take_lt _ hs64 _ _ h4]
        · simp only [varint64_take_ge _ hs64 _ _ (by omega :
            (encode_varint e.sequence_number).length ≤
              m - 4 - 1 - (encode_varint e.created_at).length)]
          by_cases h5 : m - 4 - 1 - (encode_varint e.created_at).length -
              (encode_varint e.sequence_number).length < (encode_varint e.key.length).length
          · simp only [varint32_take_lt _ hk32 _ _ h5]
          · simp only [varint32_take_ge _ hk32 _ _ (by omega :
              (encode_varint e.key.length).length ≤ m - 4 - 1 -
                (encode_varint e.created_at).length - (encode_varint e.sequence_number).length)]
            by_cases h6 : m - 4 - 1 - (encode_varint e.created_at).length -
                (encode_varint e.sequence_number).length - (encode_varint e.key.length).length <
                (encode_varint e.value.length).length
            · simp only [varint32_take_lt _ hv32 _ _ h6]
            · simp only [varint32_take_ge _ hv32 _ _ (by omega :
                (encode_varint e.value.length).length ≤ m - 4 - 1 -
                  (encode_varint e.created_at).length - (encode_varint e.sequence_number).length -
                  (encode_varint e.key.length).length)]
              rw [if_neg hcond]
              cases hx : e.expire_at with
              | none =>
                rw [hx] at hlen
                simp only [List.length_nil] at hlen
                simp only [hx, List.nil_append]
                simp only [readExpire, hnone hx, ne_eq, not_true_eq_false, if_false]
                rw [readExact_take_lt _ _ _ (by omega)]
              | some ts =>
                rw [hx] at hlen
                have hlen2 : e.encode_header.length = 4 +
                    (1 + (encode_varint e.created_at).length +
                    (encode_varint e.sequence_number).length +
                    (encode_varint e.key.length).length +
                    (encode_varint e.value.length).length +
                    (encode_varint ts).length) + e.key.length := by
                  rw [hlen]
                clear hlen
                simp only [hx]
                simp only [readExpire, if_pos (hsome ts hx)]
                by_cases h7 : m - 4 - 1 - (encode_varint e.created_at).length -
                    (encode_varint e.sequence_number).length -
                    (encode_varint e.key.length).length -
                    (encode_varint e.value.length).length < (encode_varint ts).length
                · simp only [varint64_take_lt _ (hts64 ts hx) _ _ h7]
                · simp only [varint64_take_ge _ (hts64 ts hx) _ _ (by omega :
                    (encode_varint ts).length ≤ m - 4 - 1 -
                      (encode_varint e.created_at).length -
                      (encode_varint e.sequence_number).length -
                      (encode_varint e.key.length).length -
                      (encode_varint e.value.length).length)]
                  rw [readExact_take_lt _ _ _ (by omega)]

theorem encode_to_length (e : LogEntry) :
    e.encode_to.length = e.encode_header.length + 4 + e.value.length := by
  simp [LogEntry.encode_to, leBytes4]
  omega

theorem encodeRet_eq (e : LogEntry) : e.encodeRet = e.encode_to.length := by
  simp [LogEntry.encodeRet, LogEntry.encode_to, LogEntry.encode_header, leBytes4]
  omega

theorem decode_from_body_take_eof (mk mv : Nat) (e : LogEntry) (m : Nat)
    (hg : goodEntry mk mv e = true) (hm : m < 4 + e.value.length) :
    decode_from mk mv (e.encode_header ++ (leBytes4 (crc32 e.value) ++ e.value).take m) =
      .error (.ioErr .unexpectedEof) := by
  unfold decode_from
  rw [decode_hk_append mk mv e _ hg]
  by_cases h1 : m < 4
  · simp only [readU32LE_take_lt _ _ h1]
  · simp only [readU32LE_take_ge _ _ _ (by omega : 4 ≤ m), LogEntry.toHeader]
    rw [readExact_take_lt _ _ _ (by omega)]

theorem decode_from_take_eof (mk mv : Nat) (e : LogEntry) (m : Nat)
    (hg : goodEntry mk mv e = true) (hm0 : 1 ≤ m) (hm : m < e.encode_to.length) :
    decode_from mk mv (e.encode_to.take m) = .error (.ioErr .unexpectedEof) := by
  have hsplit : e.encode_to = e.encode_header ++ (leBytes4 (crc32 e.value) ++ e.value) := by
    simp [LogEntry.encode_to]
  have hlen := encode_to_length e
  by_cases h1 : m < e.encode_header.length
  · rw [hsplit, List.take_append_eq_append_take, Nat.sub_eq_zero_of_le (by omega),
      List.take_zero, List.append_nil]
    unfold decode_from
    rw [decode_hk_take_eof mk mv e m hg (by omega) h1]
  · rw [hsplit, List.take_append_eq_append_take,
      List.take_of_length_le (by omega)]
    exact decode_from_body_take_eof mk mv e _ hg (by omega)

theorem readU32LE_error {s : List Nat} {r : TErr}
    (h : readU32LE s = .error r) : r = .ioErr .unexpectedEof := by
  unfold readU32LE at h
  split at h
  · exact absurd h (by simp)
  · cases h; rfl

theorem readU8_error {s : List Nat} {r : TErr}
    (h : readU8 s = .error r) : r = .ioErr .unexpectedEof := by
  unfold readU8 at h
  split at h
  · cases h; rfl
  · exact absurd h (by simp)

theorem readExact_error {k : Nat} {s : List Nat} {r : TErr}
    (h : readExact k s = .error r) : r = .ioErr .unexpectedEof := by
  unfold readExact at h
  split at h
  · cases h; rfl
  · exact absurd h (by simp)

theorem decode_varint_go_error (ceil w : Nat) : ∀ (s : List Nat) (shift result : Nat) (r : TErr),
    decode_varint_go ceil w s shift result = .error r →
    r = .ioErr .unexpectedEof ∨ r = .VarintDecodeError := by
  intro s
  induction s with
  | nil =>
    intro shift result r h
    simp only [decode_varint_go] at h
    split at h
    · cases h; right; rfl
    · cases h; left; rfl
  | cons b rest ihs =>
    intro shift result r h
    simp only [decode_varint_go] at h
    split at h
    · cases h; right; rfl
    · split at h
      · exact absurd h (by simp)
      · exact ihs _ _ r h

theorem readExpire_error {tb : Nat} {s : List Nat} {r : TErr}
    (h : readExpire tb s = .error r) :
    r = .ioErr .unexpectedEof ∨ r = .VarintDecodeError := by
  unfold readExpire at h
  split at h
  · split at h
    · rename_i heq
      cases h
      exact decode_varint_go_error 63 64 s 0 0 _ heq
    · exact absurd h (by simp)
  · exact absurd h (by simp)

theorem decodeHeaderBody_shape (mk mv : Nat) (s : List Nat) :
    (∃ r, decodeHeaderBody mk mv s = .error r ∧ corruptionClass r = true) ∨
    (∃ h rest, decodeHeaderBody mk mv s = .ok (some (h, rest))) := by
  unfold decodeHeaderBody
  cases h1 : readU32LE s with
  | error e1 =>
    refine Or.inl ⟨e1, ?_, by rw [readU32LE_error h1]; rfl⟩
    simp
  | ok p1 =>
    obtain ⟨crcv, s1⟩ := p1
    simp only []
    cases h2 : readU8 s1 with
    | error e2 =>
      refine Or.inl ⟨e2, ?_, by rw [readU8_error h2]; rfl⟩
      simp
    | ok p2 =>
      obtain ⟨tb, s2⟩ := p2
      simp only []
      cases h3 : decode_varint64 s2 with
      | error e3 =>
        refine Or.inl ⟨e3, ?_, ?_⟩
        · simp
        · rcases decode_varint_go_error 63 64 _ 0 0 _ h3 with h | h <;> rw [h] <;> rfl
      | ok p3 =>
        obtain ⟨cr, s3⟩ := p3
        simp only []
        cases h4 : decode_varint64 s3 with
        | error e4 =>
          refine Or.inl ⟨e4, ?_, ?_⟩
          · simp
          · rcases decode_varint_go_error 63 64 _ 0 0 _ h4 with h | h <;> rw [h] <;> rfl
        | ok p4 =>
          obtain ⟨sq, s4⟩ := p4
          simp only []
          cases h5 : decode_varint32 s4 with
          | error e5 =>
            refine Or.inl ⟨e5, ?_, ?_⟩
            · simp
            · rcases decode_varint_go_error 28 32 _ 0 0 _ h5 with h | h <;> rw [h] <;> rfl
          | ok p5 =>
            obtain ⟨kl, s5⟩ := p5
            simp only []
            cases h6 : decode_varint32 s5 with
            | error e6 =>
              refine Or.inl ⟨e6, ?_, ?_⟩
              · simp
              · rcases decode_varint_go_error 28 32 _ 0 0 _ h6 with h | h <;> rw [h] <;> rfl
            | ok p6 =>
              obtain ⟨vl, s6⟩ := p6
              simp only []
              by_cases hsz : kl > mk % 2 ^ 32 ∨ vl > mv % 2 ^ 32
              · rw [if_pos hsz]
                exact Or.inl ⟨_, rfl, rfl⟩
              · rw [if_neg hsz]
                cases h7 : readExpire tb s6 with
                | error e7 =>
                  refine Or.inl ⟨e7, ?_, ?_⟩
                  · simp
                  · rcases readExpire_error h7 with h | h <;> rw [h] <;> rfl
                | ok p7 =>
                  obtain ⟨ex, s7⟩ := p7
                  simp only []
                  cases h8 : readExact kl s7 with
                  | error e8 =>
                    refine Or.inl ⟨e8, ?_, by rw [readExact_error h8]; rfl⟩
                    simp
                  | ok p8 =>
                    obtain ⟨kb, s8⟩ := p8
                    simp only []
                    split
                    · exact Or.inl ⟨_, rfl, rfl⟩
                    · split
                      · exact Or.inr ⟨_, _, rfl⟩
                      · exact Or.inl ⟨_, rfl, rfl⟩

theorem decodeHeaderBody_error {mk mv : Nat} {s : List Nat} {r : TErr}
    (H : decodeHeaderBody mk mv s = .error r) : corruptionClass r = true := by
  rcases decodeHeaderBody_shape mk mv s with ⟨r2, hr2, hc⟩ | ⟨h, rest, hok⟩
  · rw [H] at hr2
    cases hr2
    exact hc
  · rw [H] at hok
    exact absurd hok (by simp)

theorem decodeHeaderBody_ne_none {mk mv : Nat} {s : List Nat} :
    decodeHeaderBody mk mv s ≠ .ok none := by
  rcases decodeHeaderBody_shape mk mv s with ⟨r2, hr2, _⟩ | ⟨h, rest, hok⟩
  · rw [hr2]; simp
  · rw [hok]; simp

theorem decode_header_and_key_error {mk mv : Nat} {s : List Nat} {r : TErr}
    (H : decode_header_and_key mk mv s = .error r) : corruptionClass r = true := by
  unfold decode_header_and_key at H
  split at H
  · exact absurd H (by simp)
  · exact decodeHeaderBody_error H

theorem decode_from_error {mk mv : Nat} {s : List Nat} {r : TErr}
    (H : decode_from mk mv s = .error r) : corruptionClass r = true := by
  unfold decode_from at H
  cases h1 : decode_header_and_key mk mv s with
  | error e1 =>
    rw [h1] at H
    cases H
    exact decode_header_and_key_error h1
  | ok o =>
    rw [h1] at H
    cases o with
    | none => exact absurd H (by simp)
    | some p =>
      obtain ⟨hd, s1⟩ := p
      cases h2 : readU32LE s1 with
      | error e2 =>
        simp only [h2] at H
        cases H
        rw [readU32LE_error h2]; rfl
      | ok p2 =>
        obtain ⟨bc, s2⟩ := p2
        simp only [h2] at H
        cases h3 : readExact hd.val_len s2 with
        | error e3 =>
          simp only [h3] at H
          cases H
          rw [readExact_error h3]; rfl
        | ok p3 =>
          obtain ⟨vbytes, s3⟩ := p3
          simp only [h3] at H
          split at H
          · cases H; rfl
          · exact absurd H (by simp)

theorem decode_header_and_key_none {mk mv : Nat} {s : List Nat} :
    decode_header_and_key mk mv s = .ok none ↔ s = [] := by
  constructor
  · intro H
    unfold decode_header_and_key at H
    split at H
    · rfl
    · exact absurd H decodeHeaderBody_ne_none
  · intro h
    subst h
    rfl

theorem decode_from_none {mk mv : Nat} {s : List Nat} :
    decode_from mk mv s = .ok none ↔ s = [] := by
  constructor
  · intro H
    unfold decode_from at H
    cases h1 : decode_header_and_key mk mv s with
    | error e1 => rw [h1] at H; exact absurd H (by simp)
    | ok o =>
      rw [h1] at H
      cases o with
      | none => exact (decode_header_and_key_none).mp h1
      | some p =>
        obtain ⟨hd, s1⟩ := p
        exfalso
        revert H
        cases h2 : readU32LE s1 with
        | error e2 => simp [h2]
        | ok p2 =>
          obtain ⟨bc, s2⟩ := p2
          cases h3 : readExact hd.val_len s2 with
          | error e3 => simp [h2, h3]
          | ok p3 =>
            obtain ⟨vbytes, s3⟩ := p3
            simp only [h2, h3]
            split
            · simp
            · simp
  · intro h
    subst h
    rfl

/-! ### Specific decoder error conditions -/

theorem wfEntry_spec {e : LogEntry} (h : wfEntry e = true) :
    e.entry_type < 256 ∧ (∀ b ∈ e.key, b < 256) ∧ (∀ b ∈ e.value, b < 256) ∧
    e.sequence_number < 2 ^ 64 ∧ e.created_at < 2 ^ 64 ∧
    (∀ ts, e.expire_at = some ts → ts < 2 ^ 64) ∧
    (e.expire_at = none → e.entry_type &&& 4 = 0) ∧
    (∀ ts, e.expire_at = some ts → e.entry_type &&& 4 ≠ 0) := by
  unfold wfEntry at h
  cases hx : e.expire_at with
  | none =>
    rw [hx] at h
    simp only [Bool.and_eq_true, decide_eq_true_eq, List.all_eq_true] at h
    obtain ⟨⟨⟨⟨⟨hd1, hka⟩, hva⟩, hd2⟩, hd3⟩, hM⟩ := h
    refine ⟨hd1, hka, hva, hd2, hd3, ?_, fun _ => hM, ?_⟩
    · intro ts hts
      exact Option.noConfusion hts
    · intro ts hts
      exact Option.noConfusion hts
  | some ts0 =>
    rw [hx] at h
    simp only [Bool.and_eq_true, decide_eq_true_eq, List.all_eq_true] at h
    obtain ⟨⟨⟨⟨⟨hd1, hka⟩, hva⟩, hd2⟩, hd3⟩, hts64, hM⟩ := h
    refine ⟨hd1, hka, hva, hd2, hd3, ?_, ?_, fun ts hts => hM⟩
    · intro ts hts
      cases hts
      exact hts64
    · intro hn
      exact Option.noConfusion hn

theorem decode_from_of_hk_error {mk mv : Nat} {s : List Nat} {r : TErr}
    (h : decode_header_and_key mk mv s = .error r) :
    decode_from mk mv s = .error r := by
  unfold decode_from
  simp only [h]

theorem decode_hk_oversize (mk mv : Nat) (e : LogEntry) (X : List Nat)
    (hwf : wfEntry e = true) (hk32 : e.key.length < 2 ^ 32) (hv32 : e.value.length < 2 ^ 32)
    (hover : e.key.length > mk % 2 ^ 32 ∨ e.value.length > mv % 2 ^ 32) :
    decode_header_and_key mk mv (e.encode_header ++ X) = .error (.ioErr .invalidData) := by
  obtain ⟨het, hkb, hvb, hs64, hc64, hts64, hnone, hsome⟩ := wfEntry_spec hwf
  have hmodk : e.key.length % 2 ^ 32 = e.key.length := Nat.mod_eq_of_lt hk32
  have hmodv : e.value.length % 2 ^ 32 = e.value.length := Nat.mod_eq_of_lt hv32
  have hne : e.encode_header ++ X ≠ [] := by
    intro h0
    exact encode_header_ne_nil e (List.append_eq_nil.mp h0).1
  rw [decode_hk_cons _ _ _ hne]
  unfold decodeHeaderBody
  simp only [LogEntry.encode_header, LogEntry.headerMeta, hmodk, hmodv,
    List.cons_append, List.append_assoc, readU32LE_leBytes,
    readU8, decode_varint64_enc e.created_at hc64, decode_varint64_enc e.sequence_number hs64,
    decode_varint32_enc e.key.length hk32, decode_varint32_enc e.value.length hv32,
    if_pos hover]

theorem decode_hk_oversize_early (mk mv : Nat) (e : LogEntry)
    (hwf : wfEntry e = true) (hk32 : e.key.length < 2 ^ 32) (hv32 : e.value.length < 2 ^ 32)
    (hover : e.key.length > mk % 2 ^ 32 ∨ e.value.length > mv % 2 ^ 32) :
    decode_header_and_key mk mv (e.encode_header.take e.metaPrefixLen) =
      .error (.ioErr .invalidData) := by
  obtain ⟨het, hkb, hvb, hs64, hc64, hts64, hnone, hsome⟩ := wfEntry_spec hwf
  have hmodk : e.key.length % 2 ^ 32 = e.key.length := Nat.mod_eq_of_lt hk32
  have hmodv : e.value.length % 2 ^ 32 = e.value.length := Nat.mod_eq_of_lt hv32
  have hpfx : e.metaPrefixLen = 5 + (encode_varint e.created_at).length +
      (encode_varint e.sequence_number).length + (encode_varint e.key.length).length +
      (encode_varint e.value.length).length := by
    unfold LogEntry.metaPrefixLen
    rw [hmodk, hmodv]
  have hne : e.encode_header.take e.metaPrefixLen ≠ [] := by
    apply take_ne_nil_of_pos _ (encode_header_ne_nil e)
    unfold LogEntry.metaPrefixLen
    omega
  rw [decode_hk_cons _ _ _ hne]
  unfold decodeHeaderBody
  simp only [LogEntry.encode_header, LogEntry.headerMeta, hmodk, hmodv,
    List.cons_append, List.append_assoc]
  simp only [hpfx]
  have hA1 : 1 ≤ (encode_varint e.created_at).length :=
    List.length_pos.mpr (encode_varint_ne_nil _)
  have hB1 : 1 ≤ (encode_varint e.sequence_number).length :=
    List.length_pos.mpr (encode_varint_ne_nil _)
  have hK1 : 1 ≤ (encode_varint e.key.length).length :=
    List.length_pos.mpr (encode_varint_ne_nil _)
  have hV1 : 1 ≤ (encode_varint e.value.length).length :=
    List.length_pos.mpr (encode_varint_ne_nil _)
  simp only [readU32LE_take_ge _ _ _ (by omega : 4 ≤ 5 +
    (encode_varint e.created_at).length + (encode_varint e.sequence_number).length +
    (encode_varint e.key.length).length + (encode_varint e.value.length).length)]
  simp only [readU8_take_pos _ _ _ (by omega : 1 ≤ 5 +
    (encode_varint e.created_at).length + (encode_varint e.sequence_number).length +
    (encode_varint e.key.length).length + (encode_varint e.value.length).length - 4)]
  simp only [varint64_take_ge _ hc64 _ _ (by omega : (encode_varint e.created_at).length ≤ 5 +
    (encode_varint e.created_at).length + (encode_varint e.sequence_number).length +
    (encode_varint e.key.length).length + (encode_varint e.value.length).length - 4 - 1)]
  simp only [varint64_take_ge _ hs64 _ _ (by omega :
    (encode_varint e.sequence_number).length ≤ 5 +
    (encode_varint e.created_at).length + (encode_varint e.sequence_number).length +
    (encode_varint e.key.length).length + (encode_varint e.value.length).length - 4 - 1 -
    (encode_varint e.created_at).length)]
  simp only [varint32_take_ge _ hk32 _ _ (by omega :
    (encode_varint e.key.length).length ≤ 5 +
    (encode_varint e.created_at).length + (encode_varint e.sequence_number).length +
    (encode_varint e.key.length).length + (encode_varint e.value.length).length - 4 - 1 -
    (encode_varint e.created_at).length - (encode_varint e.sequence_number).length)]
  simp only [varint32_take_ge _ hv32 _ _ (by omega :
    (encode_varint e.value.length).length ≤ 5 +
    (encode_varint e.created_at).length + (encode_varint e.sequence_number).length +
    (encode_varint e.key.length).length + (encode_varint e.value.length).length - 4 - 1 -
    (encode_varint e.created_at).length - (encode_varint e.sequence_number).length -
    (encode_varint e.key.length).length)]
  simp only [if_pos hover]

theorem decode_hk_bad_utf8 (mk mv : Nat) (e : LogEntry) (X : List Nat)
    (hwf : wfEntry e = true)
    (hkl : e.key.length ≤ mk % 2 ^ 32) (hvl : e.value.length ≤ mv % 2 ^ 32)
    (hutf : utf8Valid e.key = false) :
    decode_header_and_key mk mv (e.encode_header ++ X) = .error (.ioErr .invalidData) := by
  obtain ⟨het, hkb, hvb, hs64, hc64, hts64, hnone, hsome⟩ := wfEntry_spec hwf
  have hpos : (0 : Nat) < 2 ^ 32 := by norm_num
  have hk32 : e.key.length < 2 ^ 32 := lt_of_le_of_lt hkl (Nat.mod_lt _ hpos)
  have hv32 : e.value.length < 2 ^ 32 := lt_of_le_of_lt hvl (Nat.mod_lt _ hpos)
  have hmodk : e.key.length % 2 ^ 32 = e.key.length := Nat.mod_eq_of_lt hk32
  have hmodv : e.value.length % 2 ^ 32 = e.value.length := Nat.mod_eq_of_lt hv32
  have hbytes : ∀ b ∈ e.headerMeta ++ e.key, b < 2 ^ 32 := by
    intro b hb
    rcases List.mem_append.mp hb with hb | hb
    · exact lt_of_lt_of_le (headerMeta_bytes_lt e het b hb) (by norm_num)
    · exact lt_of_lt_of_le (hkb b hb) (by norm_num)
  have hcrc : crc32 (e.headerMeta ++ e.key) < 2 ^ 32 := crc32_lt _ hbytes
  have hcond : ¬ (e.key.length > mk % 2 ^ 32 ∨ e.value.length > mv % 2 ^ 32) := by
    push_neg
    exact ⟨hkl, hvl⟩
  have hne : e.encode_header ++ X ≠ [] := by
    intro h0
    exact encode_header_ne_nil e (List.append_eq_nil.mp h0).1
  rw [decode_hk_cons _ _ _ hne]
  unfold decodeHeaderBody
  simp only [LogEntry.encode_header, LogEntry.headerMeta, hmodk, hmodv,
    List.cons_append, List.append_assoc, readU32LE_leBytes, Nat.mod_eq_of_lt hcrc,
    readU8, decode_varint64_enc e.created_at hc64, decode_varint64_enc e.sequence_number hs64,
    decode_varint32_enc e.key.length hk32, decode_varint32_enc e.value.length hv32,
    if_neg hcond, readExpire_enc e hts64 hnone hsome,
    readExact_append e.key.length e.key _ rfl]
  simp only [hutf]
  have hcrc2 : crc32 (e.entry_type ::
      (encode_varint e.created_at ++ (encode_varint e.sequence_number ++
        (encode_varint e.key.length ++ (encode_varint e.value.length ++
          ((match e.expire_at with
            | some ts => encode_varint ts
            | none => []) ++ e.key)))))) < 4294967296 := by
    have h2 := hcrc
    simp only [LogEntry.headerMeta, hmodk, hmodv, List.cons_append, List.append_assoc] at h2
    norm_num at h2
    exact h2
  simp [Nat.mod_eq_of_lt hcrc2]

theorem decode_hk_header_crc_mismatch (mk mv : Nat) (e : LogEntry) (c2 : Nat) (X : List Nat)
    (hwf : wfEntry e = true)
    (hkl : e.key.length ≤ mk % 2 ^ 32) (hvl : e.value.length ≤ mv % 2 ^ 32)
    (hc2 : c2 < 2 ^ 32) (hmis : c2 ≠ crc32 (e.headerMeta ++ e.key)) :
    decode_header_and_key mk mv (leBytes4 c2 ++ e.headerMeta ++ e.key ++ X) =
      .error (.CrcMismatch c2) := by
  obtain ⟨het, hkb, hvb, hs64, hc64, hts64, hnone, hsome⟩ := wfEntry_spec hwf
  have hpos : (0 : Nat) < 2 ^ 32 := by norm_num
  have hk32 : e.key.length < 2 ^ 32 := lt_of_le_of_lt hkl (Nat.mod_lt _ hpos)
  have hv32 : e.value.length < 2 ^ 32 := lt_of_le_of_lt hvl (Nat.mod_lt _ hpos)
  have hmodk : e.key.length % 2 ^ 32 = e.key.length := Nat.mod_eq_of_lt hk32
  have hmodv : e.value.length % 2 ^ 32 = e.value.length := Nat.mod_eq_of_lt hv32
  have hcond : ¬ (e.key.length > mk % 2 ^ 32 ∨ e.value.length > mv % 2 ^ 32) := by
    push_neg
    exact ⟨hkl, hvl⟩
  have hne : leBytes4 c2 ++ e.headerMeta ++ e.key ++ X ≠ [] := by
    simp [leBytes4]
  rw [decode_hk_cons _ _ _ hne]
  unfold decodeHeaderBody
  have hmis2 : crc32 (e.headerMeta ++ e.key) ≠ c2 := fun h => hmis h.symm
  simp only [LogEntry.headerMeta, hmodk, hmodv, List.cons_append, List.append_assoc,
    readU32LE_leBytes, Nat.mod_eq_of_lt hc2,
    readU8, decode_varint64_enc e.created_at hc64, decode_varint64_enc e.sequence_number hs64,
    decode_varint32_enc e.key.length hk32, decode_varint32_enc e.value.length hv32,
    if_neg hcond, readExpire_enc e hts64 hnone hsome,
    readExact_append e.key.length e.key _ rfl]
  have hmis3 : crc32 (e.entry_type ::
      (encode_varint e.created_at ++ (encode_varint e.sequence_number ++
        (encode_varint e.key.length ++ (encode_varint e.value.length ++
          ((match e.expire_at with
            | some ts => encode_varint ts
            | none => []) ++ e.key)))))) ≠ c2 := by
    intro h
    apply hmis2
    rw [← h]
    simp only [LogEntry.headerMeta, hmodk, hmodv, List.cons_append, List.append_assoc]
  simp [hmis3]

theorem decode_from_body_crc_mismatch (mk mv : Nat) (e : LogEntry) (c2 : Nat)
    (v2 X : List Nat) (hg : goodEntry mk mv e = true)
    (hlen : v2.length = e.value.length) (hc2 : c2 < 2 ^ 32) (hmis : crc32 v2 ≠ c2) :
    decode_from mk mv (e.encode_header ++ leBytes4 c2 ++ v2 ++ X) =
      .error (.CrcMismatch c2) := by
  unfold decode_from
  rw [List.append_assoc, List.append_assoc, decode_hk_append mk mv e _ hg]
  simp only [LogEntry.toHeader, readU32LE_leBytes, Nat.mod_eq_of_lt hc2]
  rw [← hlen]
  simp only [readExact_append v2.length v2 _ rfl]
  simp [hmis]

/-! ### Scan specification -/

theorem encode_to_pos (e : LogEntry) : 1 ≤ e.encode_to.length := by
  rw [encode_to_length]
  omega

theorem encode_header_pos (e : LogEntry) : 5 ≤ e.encode_header.length := by
  simp [LogEntry.encode_header, leBytes4, LogEntry.headerMeta]

theorem leBytes4_length (n : Nat) : (leBytes4 n).length = 4 := by
  simp [leBytes4]

theorem scanGo_spec (mk mv fid : Nat) (es : List LogEntry) (content : List Nat)
    (hGood : ∀ e ∈ es, goodEntry mk mv e = true) :
    ∀ (o fuel : Nat) (idx : List Nat → Option LogIndex) (seq : Nat),
    o ≤ content.length →
    content.length + 1 - o ≤ fuel →
    content.drop o = (concatEnc es).take (content.length - o) →
    scanGo mk mv fid content fuel o idx seq =
      ⟨replayIdx fid o idx (fitRecords es (content.length - o)),
       replaySeq seq (fitRecords es (content.length - o)),
       (if o + (concatEnc (fitRecords es (content.length - o))).length = content.length
        then none
        else some (o + (concatEnc (fitRecords es (content.length - o))).length)),
       none⟩ := by
  induction es with
  | nil =>
    intro o fuel idx seq ho hfuel hdrop
    simp only [concatEnc, List.take_nil] at hdrop
    have holen : o = content.length := by
      have := List.length_drop o content
      rw [hdrop] at this
      simp at this
      omega
    obtain ⟨f, rfl⟩ : ∃ f, fuel = f + 1 := ⟨fuel - 1, by omega⟩
    simp only [scanGo, hdrop, decode_header_and_key]
    simp [fitRecords, replayIdx, replaySeq, concatEnc, holen]
  | cons e tl ih =>
    intro o fuel idx seq ho hfuel hdrop
    have hge : goodEntry mk mv e = true := hGood e (List.mem_cons_self _ _)
    have hgtl : ∀ x ∈ tl, goodEntry mk mv x = true :=
      fun x hx => hGood x (List.mem_cons_of_mem _ hx)
    have hmodv : e.value.length % 2 ^ 32 = e.value.length := by
      obtain ⟨-, -, -, -, -, -, -, -, -, -, hvl⟩ := goodEntry_spec hge
      exact Nat.mod_eq_of_lt (lt_of_le_of_lt hvl (Nat.mod_lt _ (by norm_num)))
    have hdlen : (content.drop o).length = content.length - o := by
      simp
    have hL := encode_to_length e
    have hH := encode_header_pos e
    obtain ⟨f, rfl⟩ : ∃ f, fuel = f + 1 := ⟨fuel - 1, by omega⟩
    have hm_le : content.length - o ≤ e.encode_to.length + (concatEnc tl).length := by
      have := congrArg List.length hdrop
      rw [hdlen, List.length_take] at this
      simp only [concatEnc, List.length_append] at this
      omega
    by_cases hfit : e.encode_to.length ≤ content.length - o
    · -- the first record fits entirely
      have hTlen : ((concatEnc tl).take
          (content.length - o - e.encode_to.length)).length =
          content.length - o - e.encode_to.length := by
        rw [List.length_take]
        omega
      have hT2 : content.drop o = e.encode_header ++
          (leBytes4 (crc32 e.value) ++ (e.value ++
            (concatEnc tl).take (content.length - o - e.encode_to.length))) := by
      -- split the fitting record off the truncated stream
        rw [hdrop]
        simp only [concatEnc]
        rw [List.take_append_eq_append_take, List.take_of_length_le hfit]
        have hsplit : e.encode_to =
            e.encode_header ++ (leBytes4 (crc32 e.value) ++ e.value) := by
          simp [LogEntry.encode_to]
        conv_lhs => rw [hsplit]
        simp [List.append_assoc]
        simp only [leBytes4_length, inf_eq_min]
        omega
      have hdec : decode_header_and_key mk mv (content.drop o) =
          .ok (some (e.toHeader, leBytes4 (crc32 e.value) ++ (e.value ++
            (concatEnc tl).take (content.length - o - e.encode_to.length)))) := by
        rw [hT2]
        exact decode_hk_append mk mv e _ hge
      simp only [scanGo, hdec, hdlen, LogEntry.toHeader, List.length_append,
        leBytes4_length, hTlen]
      split
      · exfalso
        rename_i hcontra
        omega
      · have hoff : o + (content.length - o -
            (4 + (e.value.length + (content.length - o - e.encode_to.length)))) +
            (4 + e.value.length) = o + e.encode_to.length := by
          omega
        rw [hoff]
        have hdrop2 : content.drop (o + e.encode_to.length) =
            (concatEnc tl).take (content.length - (o + e.encode_to.length)) := by
          have hdd : content.drop (o + e.encode_to.length) =
              (content.drop o).drop e.encode_to.length := by
            rw [List.drop_drop]
          rw [hdd, hdrop]
          simp only [concatEnc]
          rw [List.take_append_eq_append_take, List.take_of_length_le hfit,
            List.drop_left]
          congr 1
          omega
        have hle1 : o + e.encode_to.length ≤ content.length := by omega
        have hle2 : content.length + 1 - (o + e.encode_to.length) ≤ f := by omega
        have ihs := fun i s =>
          ih hgtl (o + e.encode_to.length) f i s hle1 hle2 hdrop2
        rw [ihs]
        have hfit2 : fitRecords (e :: tl) (content.length - o) =
            e :: fitRecords tl (content.length - (o + e.encode_to.length)) := by
          simp only [fitRecords, if_pos hfit]
          have hb : content.length - o - e.encode_to.length =
              content.length - (o + e.encode_to.length) := by omega
          rw [hb]
        rw [hfit2]
        simp only [replayIdx, replaySeq, concatEnc, List.length_append, hmodv]
        rw [← Nat.add_assoc]
    · -- the first record is cut
      have hfit2 : fitRecords (e :: tl) (content.length - o) = [] := by
        simp only [fitRecords, if_neg hfit]
      rw [hfit2]
      simp only [replayIdx, replaySeq, concatEnc, List.length_nil, Nat.add_zero]
      have hcut : content.drop o = e.encode_to.take (content.length - o) := by
        rw [hdrop]
        simp only [concatEnc]
        have hz : content.length - o - e.encode_to.length = 0 := by omega
        rw [List.take_append_eq_append_take, hz, List.take_zero, List.append_nil]
      by_cases hzero : content.length - o = 0
      · -- exactly at the end of the file: clean EOF, no truncation
        have hnil : content.drop o = [] := by
          rw [hcut, hzero, List.take_zero]
        simp only [scanGo, hnil, decode_header_and_key]
        rw [if_pos (by omega)]
      · rw [if_neg (by omega)]
        by_cases hhd : content.length - o < e.encode_header.length
        · -- cut inside the header: UnexpectedEof, truncate at the record start
          have hcut2 : content.drop o = e.encode_header.take (content.length - o) := by
            rw [hcut]
            have hsplit : e.encode_to =
                e.encode_header ++ (leBytes4 (crc32 e.value) ++ e.value) := by
              simp [LogEntry.encode_to]
            have hz2 : content.length - o - e.encode_header.length = 0 := by omega
            rw [hsplit, List.take_append_eq_append_take, hz2,
              List.take_zero, List.append_nil]
          have hdec : decode_header_and_key mk mv (content.drop o) =
              .error (.ioErr .unexpectedEof) := by
            rw [hcut2]
            exact decode_hk_take_eof mk mv e _ hge (by omega) hhd
          simp only [scanGo, hdec, corruptionClass, if_true]
        · -- header complete but the body does not fit: the pre-check fires
          have hbody : content.drop o = e.encode_header ++
              ((leBytes4 (crc32 e.value) ++ e.value).take
                (content.length - o - e.encode_header.length)) := by
            rw [hcut]
            have hsplit : e.encode_to =
                e.encode_header ++ (leBytes4 (crc32 e.value) ++ e.value) := by
              simp [LogEntry.encode_to]
            rw [hsplit, List.take_append_eq_append_take,
              List.take_of_length_le (by omega)]
          have hdec : decode_header_and_key mk mv (content.drop o) =
              .ok (some (e.toHeader, (leBytes4 (crc32 e.value) ++ e.value).take
                (content.length - o - e.encode_header.length))) := by
            rw [hbody]
            exact decode_hk_append mk mv e _ hge
          have hXlen : ((leBytes4 (crc32 e.value) ++ e.value).take
              (content.length - o - e.encode_header.length)).length =
              content.length - o - e.encode_header.length := by
            rw [List.length_take, List.length_append, leBytes4_length]
            omega
          simp only [scanGo, hdec, hdlen, LogEntry.toHeader, hXlen]
          rw [if_pos (by omega)]

/-- The records kept by `fitRecords` occupy at most the byte budget. -/
theorem concatEnc_fit_len_le (es : List LogEntry) (m : Nat) :
    (concatEnc (fitRecords es m)).length ≤ m := by
  induction es generalizing m with
  | nil => simp [fitRecords, concatEnc]
  | cons e tl ih =>
    by_cases h : e.encode_to.length ≤ m
    · simp only [fitRecords, if_pos h, concatEnc, List.length_append]
      have := ih (m - e.encode_to.length)
      omega
    · simp [fitRecords, if_neg h, concatEnc]

/-- The bytes of the fitting records form a prefix of the whole log. -/
theorem concatEnc_fit_prefix (es : List LogEntry) (m : Nat) :
    (concatEnc es).take ((concatEnc (fitRecords es m)).length) =
      concatEnc (fitRecords es m) := by
  induction es generalizing m with
  | nil => simp [fitRecords, concatEnc]
  | cons e tl ih =>
    by_cases h : e.encode_to.length ≤ m
    · simp only [fitRecords, if_pos h, concatEnc, List.length_append]
      rw [List.take_append_eq_append_take, List.take_of_length_le (by omega)]
      congr 1
      have : e.encode_to.length +
          (concatEnc (fitRecords tl (m - e.encode_to.length))).length -
          e.encode_to.length =
          (concatEnc (fitRecords tl (m - e.encode_to.length))).length := by omega
      rw [this]
      exact ih _
    · simp [fitRecords, if_neg h, concatEnc]

/-- Recovery of a store opened on an arbitrary prefix of a well-formed log
succeeds and yields exactly the replay of the records that fit in the
prefix, truncating any cut final record. -/
theorem restore_openSingle (cfg : Config) (es : List LogEntry) (n : Nat)
    (hGood : ∀ e ∈ es, goodEntry cfg.max_key_size cfg.max_val_size e = true) :
    KVStore.restore cfg (openSingle ((concatEnc es).take n)) =
      (.ok (), replayedStore es (((concatEnc es).take n).length)) := by
  have hcontent_eq : (concatEnc es).take n =
      (concatEnc es).take (((concatEnc es).take n).length) := by
    rw [List.length_take]
    rcases le_total n (concatEnc es).length with h | h
    · rw [min_eq_left h]
    · rw [min_eq_right h, List.take_length, List.take_of_length_le h]
  have hscan := scanGo_spec cfg.max_key_size cfg.max_val_size 1 es
    ((concatEnc es).take n) hGood 0 (((concatEnc es).take n).length + 1)
    (fun _ => none) 0 (Nat.zero_le _) (by omega)
    (by simpa using hcontent_eq)
  simp only [Nat.sub_zero, Nat.zero_add] at hscan
  have hle := concatEnc_fit_len_le es (((concatEnc es).take n).length)
  have hpre := concatEnc_fit_prefix es (((concatEnc es).take n).length)
  have htk : ∀ m, m ≤ ((concatEnc es).take n).length →
      ((concatEnc es).take n).take m = (concatEnc es).take m := by
    intro m hm
    rw [List.take_take]
    congr 1
    have := List.length_take n (concatEnc es)
    omega
  simp only [KVStore.restore, openSingle, KVStore.restoreGo, List.map,
    sortIds, List.foldr, List.nil_append, List.singleton_append,
    KVStore.restoreFile, eq_self_iff_true, if_true, hscan]
  by_cases hfull :
      (concatEnc (fitRecords es (((concatEnc es).take n).length))).length =
      ((concatEnc es).take n).length
  · simp only [if_pos hfull]
    have hc : (concatEnc es).take n =
        concatEnc (fitRecords es (((concatEnc es).take n).length)) := by
      conv_lhs => rw [hcontent_eq, ← hfull]
      exact hpre
    simp only [replayedStore]
    exact congrArg (fun c =>
      (((Except.ok ()),
        { activeId := 1, activeContent := c, activeSynced := c.length,
          wbuf := [], wOffset := c.length, archives := [],
          index := replayIdx 1 0 (fun _ => none)
            (fitRecords es (((concatEnc es).take n).length)),
          seq := replaySeq 0 (fitRecords es (((concatEnc es).take n).length)),
          faults := [] }) : Except TErr Unit × KVStore)) hc
  · simp only [if_neg hfull]
    rw [htk _ hle, hpre]
    simp only [replayedStore, List.map_nil, Nat.min_eq_right hle]

/-- Records kept by `fitRecords` come from the original list. -/
theorem fitRecords_subset (es : List LogEntry) (m : Nat) :
    ∀ x ∈ fitRecords es m, x ∈ es := by
  induction es generalizing m with
  | nil => simp [fitRecords]
  | cons e tl ih =>
    intro x hx
    by_cases h : e.encode_to.length ≤ m
    · simp only [fitRecords, if_pos h] at hx
      rcases List.mem_cons.mp hx with hx | hx
      · simp [hx]
      · exact List.mem_cons_of_mem _ (ih _ _ hx)
    · simp [fitRecords, if_neg h] at hx

/-- The replayed index maps a key to the last record mentioning it:
`none` past a tombstone, the record's location otherwise. -/
theorem replayIdx_lastFor (fid : Nat) (k : List Nat) (S : List LogEntry) :
    ∀ (base : Nat) (idx : List Nat → Option LogIndex),
    replayIdx fid base idx S k =
      (match lastFor k base S with
       | none => idx k
       | some (e, off) =>
         if e.entry_type &&& 1 ≠ 0 then none
         else some (LogIndex.mk fid (e.value.length % 2 ^ 32) off)) := by
  induction S with
  | nil => intro base idx; simp [replayIdx, lastFor]
  | cons e tl ih =>
    intro base idx
    simp only [replayIdx, lastFor]
    rw [ih]
    cases hlast : lastFor k (base + e.encode_to.length) tl with
    | some r => rfl
    | none =>
      simp only []
      by_cases hk : e.key = k
      · subst hk
        have hmr : (match (if e.key = e.key then some (e, base) else none) with
            | none => idx e.key
            | some (e, off) =>
              if e.entry_type &&& 1 ≠ 0 then none
              else some (LogIndex.mk fid (e.value.length % 2 ^ 32) off)) =
            if e.entry_type &&& 1 ≠ 0 then none
            else some (LogIndex.mk fid (e.value.length % 2 ^ 32) base) := by
          rw [if_pos rfl]
        rw [hmr]
        by_cases ht : e.entry_type &&& 1 ≠ 0
        · rw [if_pos ht, if_pos ht]
          exact if_pos rfl
        · rw [if_neg ht, if_neg ht]
          exact if_pos rfl
      · rw [if_neg hk]
        by_cases ht : e.entry_type &&& 1 ≠ 0
        · simp only [if_pos ht]
          rw [if_neg (fun h => hk h.symm)]
        · simp only [if_neg ht]
          rw [if_neg (fun h => hk h.symm)]

/-- The record reported by `lastFor` sits at its reported offset in the
concatenated encoding. -/
theorem lastFor_drop (k : List Nat) (S : List LogEntry) :
    ∀ (base off : Nat) (e : LogEntry), lastFor k base S = some (e, off) →
      base ≤ off ∧ e ∈ S ∧
      ∃ X, (concatEnc S).drop (off - base) = e.encode_to ++ X := by
  induction S with
  | nil => intro base off e h; simp [lastFor] at h
  | cons e' tl ih =>
    intro base off e h
    simp only [lastFor] at h
    cases hlast : lastFor k (base + e'.encode_to.length) tl with
    | some r =>
      rw [hlast] at h
      simp only [] at h
      obtain rfl : r = (e, off) := Option.some.inj h
      obtain ⟨hle, hmem, X, hX⟩ := ih _ _ _ hlast
      refine ⟨by omega, List.mem_cons_of_mem _ hmem, X, ?_⟩
      simp only [concatEnc]
      rw [List.drop_append_eq_append_drop, List.drop_eq_nil_of_le (by omega),
        List.nil_append, ← hX]
      congr 1
      omega
    | none =>
      rw [hlast] at h
      simp only [] at h
      by_cases hk : e'.key = k
      · rw [if_pos hk] at h
        have hpair : (e', base) = (e, off) := Option.some.inj h
        obtain rfl : e' = e := congrArg Prod.fst hpair
        obtain rfl : base = off := congrArg Prod.snd hpair
        exact ⟨le_refl _, List.mem_cons_self _ _,
          concatEnc tl, by simp [concatEnc]⟩
      · rw [if_neg hk] at h
        exact absurd h (by simp)

/-- Unfolding of `get` when the index holds an entry for the key. -/
theorem get_match_some (cfg : Config) (now : Nat) (k : List Nat) (st : KVStore)
    (li : LogIndex) (h : st.index k = some li) :
    KVStore.get cfg now k st =
      (match decode_from cfg.max_key_size cfg.max_val_size
          ((if li.file_id = st.activeId then st.activeContent
            else st.lookupArchive li.file_id).drop li.offset) with
       | .error e => .error e
       | .ok none => .error (.ioErr .unexpectedEof)
       | .ok (some (entry, _)) =>
         match entry.expire_at with
         | some exp => if now > exp then .ok none else .ok (some entry)
         | none => .ok (some entry)) := by
  simp only [KVStore.get, h]

/-- `get` on a recovered store: the answer is determined by the last
surviving record for the key — absent or tombstoned keys read as `None`,
live records are returned subject to the lazy TTL check. -/
theorem get_restored (cfg : Config) (now : Nat) (k : List Nat) (es : List LogEntry)
    (len : Nat)
    (hGood : ∀ e ∈ es, goodEntry cfg.max_key_size cfg.max_val_size e = true) :
    KVStore.get cfg now k (replayedStore es len) =
      (match lastFor k 0 (fitRecords es len) with
       | none => .ok none
       | some (e, _) =>
         if e.entry_type &&& 1 ≠ 0 then .ok none
         else match e.expire_at with
              | some exp => if now > exp then .ok none else .ok (some e)
              | none => .ok (some e)) := by
  cases hlast : lastFor k 0 (fitRecords es len) with
  | none =>
    have hidx : (replayedStore es len).index k = none := by
      show replayIdx 1 0 (fun _ => none) (fitRecords es len) k = none
      rw [replayIdx_lastFor, hlast]
    simp only [KVStore.get, hidx]
  | some r =>
    obtain ⟨e, off⟩ := r
    by_cases ht : e.entry_type &&& 1 ≠ 0
    · have hidx : (replayedStore es len).index k = none := by
        show replayIdx 1 0 (fun _ => none) (fitRecords es len) k = none
        rw [replayIdx_lastFor, hlast]
        exact if_pos ht
      simp only [KVStore.get, hidx]
      rw [if_pos ht]
    · have hidx : (replayedStore es len).index k =
          some (LogIndex.mk 1 (e.value.length % 2 ^ 32) off) := by
        show replayIdx 1 0 (fun _ => none) (fitRecords es len) k = _
        rw [replayIdx_lastFor, hlast]
        exact if_neg ht
      rw [get_match_some cfg now k _ _ hidx]
      have hc : (LogIndex.mk 1 (e.value.length % 2 ^ 32) off).file_id =
          (replayedStore es len).activeId := rfl
      rw [if_pos hc]
      obtain ⟨-, hmem, X, hX⟩ := lastFor_drop k (fitRecords es len) 0 off e hlast
      rw [Nat.sub_zero] at hX
      have hX2 : (replayedStore es len).activeContent.drop
          ((LogIndex.mk 1 (e.value.length % 2 ^ 32) off).offset) =
          e.encode_to ++ X := hX
      rw [hX2, decode_from_append cfg.max_key_size cfg.max_val_size e X
        (hGood e (fitRecords_subset es len e hmem))]
      simp only []
      rw [if_neg ht]

/-! ### Write-path specifications (no injected faults) -/

/-- `set` below the rotation threshold: no rotation, the record is appended
in place at the writer offset, the buffer is flushed (and fsynced in `Sync`
mode), the sequence counter advances by one, and the key's index entry is
replaced last. -/
theorem set_spec_stay (cfg : Config) (now : Nat) (key value : List Nat)
    (st : KVStore) (hf : st.faults = []) (hseq : st.seq + 1 < 2 ^ 64)
    (hrot : ¬ st.wOffset ≥ cfg.max_file_size) :
    KVStore.set cfg now key value st =
      (.ok (), { st with
        activeContent := st.activeContent ++
          (st.wbuf ++ (LogEntry.new key value (st.seq + 1) now).encode_to),
        activeSynced :=
          (match cfg.write_mod with
           | .Sync => (st.activeContent ++
               (st.wbuf ++ (LogEntry.new key value (st.seq + 1) now).encode_to)).length
           | .Buffer => st.activeSynced),
        wbuf := [],
        wOffset := st.wOffset + (LogEntry.new key value (st.seq + 1) now).encodeRet,
        seq := st.seq + 1,
        faults := [],
        index := fun kk =>
          (if kk = key then
            some (LogIndex.mk st.activeId (value.length % 2 ^ 32) st.wOffset)
           else st.index kk) }) := by
  obtain ⟨aid, ac, asy, wb, wo, ar, idx, sq, fl⟩ := st
  simp only [] at hf hseq hrot
  subst hf
  obtain ⟨mk, mv, mfs, wm⟩ := cfg
  simp only [] at hrot
  cases wm with
  | Sync =>
    simp only [KVStore.set, if_neg hrot, KVStore.next_seq_no, if_pos hseq,
      KVStore.write_entry, KVStore.popFault, KVStore.applyWriteMod,
      KVStore.syncOp, KVStore.flushBuf, KVStore.fileSync]
  | Buffer =>
    simp only [KVStore.set, if_neg hrot, KVStore.next_seq_no, if_pos hseq,
      KVStore.write_entry, KVStore.popFault, KVStore.applyWriteMod,
      KVStore.flush_to_os, KVStore.flushBuf]

/-- `set` at or above the rotation threshold: the active file is synced and
archived, the id increments, and the whole new record lands at offset 0 of
the fresh file. -/
theorem set_spec_rotate (cfg : Config) (now : Nat) (key value : List Nat)
    (st : KVStore) (hf : st.faults = []) (hseq : st.seq + 1 < 2 ^ 64)
    (hrot : st.wOffset ≥ cfg.max_file_size) :
    KVStore.set cfg now key value st =
      (.ok (), {
        activeId := st.activeId + 1,
        activeContent := (LogEntry.new key value (st.seq + 1) now).encode_to,
        activeSynced :=
          (match cfg.write_mod with
           | .Sync => (LogEntry.new key value (st.seq + 1) now).encode_to.length
           | .Buffer => 0),
        wbuf := [],
        wOffset := 0 + (LogEntry.new key value (st.seq + 1) now).encodeRet,
        archives := (st.activeId, st.activeContent ++ st.wbuf) :: st.archives,
        seq := st.seq + 1,
        faults := [],
        index := fun kk =>
          (if kk = key then
            some (LogIndex.mk (st.activeId + 1) (value.length % 2 ^ 32) 0)
           else st.index kk) }) := by
  obtain ⟨aid, ac, asy, wb, wo, ar, idx, sq, fl⟩ := st
  simp only [] at hf hseq hrot
  subst hf
  obtain ⟨mk, mv, mfs, wm⟩ := cfg
  simp only [] at hrot
  cases wm with
  | Sync =>
    simp only [KVStore.set, if_pos hrot, KVStore.rotate, KVStore.syncOp,
      KVStore.flushBuf, KVStore.fileSync, KVStore.popFault,
      KVStore.next_seq_no, if_pos hseq, KVStore.write_entry,
      KVStore.applyWriteMod, List.nil_append]
  | Buffer =>
    simp only [KVStore.set, if_pos hrot, KVStore.rotate, KVStore.syncOp,
      KVStore.flushBuf, KVStore.fileSync, KVStore.popFault,
      KVStore.next_seq_no, if_pos hseq, KVStore.write_entry,
      KVStore.applyWriteMod, KVStore.flush_to_os, List.nil_append]

/-- `set_with_ttl` below the rotation threshold: as `set`, with the
TTL-carrying record. -/
theorem set_ttl_spec_stay (cfg : Config) (now : Nat) (key value : List Nat)
    (ttl : Nat) (st : KVStore) (hf : st.faults = []) (hseq : st.seq + 1 < 2 ^ 64)
    (hrot : ¬ st.wOffset ≥ cfg.max_file_size) :
    KVStore.set_with_ttl cfg now key value ttl st =
      (.ok (), { st with
        activeContent := st.activeContent ++ (st.wbuf ++
          ((LogEntry.new key value (st.seq + 1) now).with_ttl
            ((now + ttl % 2 ^ 64) % 2 ^ 64)).encode_to),
        activeSynced :=
          (match cfg.write_mod with
           | .Sync => (st.activeContent ++ (st.wbuf ++
               ((LogEntry.new key value (st.seq + 1) now).with_ttl
                 ((now + ttl % 2 ^ 64) % 2 ^ 64)).encode_to)).length
           | .Buffer => st.activeSynced),
        wbuf := [],
        wOffset := st.wOffset +
          ((LogEntry.new key value (st.seq + 1) now).with_ttl
            ((now + ttl % 2 ^ 64) % 2 ^ 64)).encodeRet,
        seq := st.seq + 1,
        faults := [],
        index := fun kk =>
          (if kk = key then
            some (LogIndex.mk st.activeId (value.length % 2 ^ 32) st.wOffset)
           else st.index kk) }) := by
  obtain ⟨aid, ac, asy, wb, wo, ar, idx, sq, fl⟩ := st
  simp only [] at hf hseq hrot
  subst hf
  obtain ⟨mk, mv, mfs, wm⟩ := cfg
  simp only [] at hrot
  cases wm with
  | Sync =>
    simp only [KVStore.set_with_ttl, if_neg hrot, KVStore.next_seq_no,
      if_pos hseq, KVStore.write_entry, KVStore.popFault,
      KVStore.applyWriteMod, KVStore.syncOp, KVStore.flushBuf,
      KVStore.fileSync]
  | Buffer =>
    simp only [KVStore.set_with_ttl, if_neg hrot, KVStore.next_seq_no,
      if_pos hseq, KVStore.write_entry, KVStore.popFault,
      KVStore.applyWriteMod, KVStore.flush_to_os, KVStore.flushBuf]

/-- `set_with_ttl` at or above the rotation threshold rotates first, exactly
as `set` does. -/
theorem set_ttl_spec_rotate (cfg : Config) (now : Nat) (key value : List Nat)
    (ttl : Nat) (st : KVStore) (hf : st.faults = []) (hseq : st.seq + 1 < 2 ^ 64)
    (hrot : st.wOffset ≥ cfg.max_file_size) :
    (KVStore.set_with_ttl cfg now key value ttl st).1 = .ok () ∧
    (KVStore.set_with_ttl cfg now key value ttl st).2.activeId = st.activeId + 1 ∧
    (KVStore.set_with_ttl cfg now key value ttl st).2.activeContent =
      ((LogEntry.new key value (st.seq + 1) now).with_ttl
        ((now + ttl % 2 ^ 64) % 2 ^ 64)).encode_to ∧
    (KVStore.set_with_ttl cfg now key value ttl st).2.index key =
      some (LogIndex.mk (st.activeId + 1) (value.length % 2 ^ 32) 0) := by
  obtain ⟨aid, ac, asy, wb, wo, ar, idx, sq, fl⟩ := st
  simp only [] at hf hseq hrot
  subst hf
  obtain ⟨mk, mv, mfs, wm⟩ := cfg
  simp only [] at hrot
  cases wm with
  | Sync =>
    simp only [KVStore.set_with_ttl, if_pos hrot, KVStore.rotate,
      KVStore.syncOp, KVStore.flushBuf, KVStore.fileSync, KVStore.popFault,
      KVStore.next_seq_no, if_pos hseq, KVStore.write_entry,
      KVStore.applyWriteMod, List.nil_append]
    exact ⟨trivial, trivial, trivial, if_pos True.intro⟩
  | Buffer =>
    simp only [KVStore.set_with_ttl, if_pos hrot, KVStore.rotate,
      KVStore.syncOp, KVStore.flushBuf, KVStore.fileSync, KVStore.popFault,
      KVStore.next_seq_no, if_pos hseq, KVStore.write_entry,
      KVStore.applyWriteMod, KVStore.flush_to_os, List.nil_append]
    exact ⟨trivial, trivial, trivial, if_pos True.intro⟩

/-- `remove` of an indexed key appends a tombstone in place — the source has
no rotation check here — applies the durability policy, and drops the index
entry. -/
theorem remove_spec (cfg : Config) (now : Nat) (key : List Nat)
    (st : KVStore) (li : LogIndex) (hidx : st.index key = some li)
    (hf : st.faults = []) (hseq : st.seq + 1 < 2 ^ 64) :
    KVStore.remove cfg now key st =
      (.ok (), { st with
        activeContent := st.activeContent ++
          (st.wbuf ++ (LogEntry.new_tombstone key (st.seq + 1) now).encode_to),
        activeSynced :=
          (match cfg.write_mod with
           | .Sync => (st.activeContent ++
               (st.wbuf ++ (LogEntry.new_tombstone key (st.seq + 1) now).encode_to)).length
           | .Buffer => st.activeSynced),
        wbuf := [],
        wOffset := st.wOffset + (LogEntry.new_tombstone key (st.seq + 1) now).encodeRet,
        seq := st.seq + 1,
        faults := [],
        index := fun kk => if kk = key then none else st.index kk }) := by
  obtain ⟨aid, ac, asy, wb, wo, ar, idx, sq, fl⟩ := st
  simp only [] at hf hseq hidx
  subst hf
  obtain ⟨mk, mv, mfs, wm⟩ := cfg
  cases wm with
  | Sync =>
    simp only [KVStore.remove, hidx, KVStore.next_seq_no, if_pos hseq,
      KVStore.write_entry, KVStore.popFault, KVStore.applyWriteMod,
      KVStore.syncOp, KVStore.flushBuf, KVStore.fileSync]
  | Buffer =>
    simp only [KVStore.remove, hidx, KVStore.next_seq_no, if_pos hseq,
      KVStore.write_entry, KVStore.popFault, KVStore.applyWriteMod,
      KVStore.flush_to_os, KVStore.flushBuf]

/-- `remove` of an unindexed key is a strict no-op. -/
theorem remove_noop (cfg : Config) (now : Nat) (key : List Nat) (st : KVStore)
    (hidx : st.index key = none) :
    KVStore.remove cfg now key st = (.ok (), st) := by
  simp only [KVStore.remove, hidx]

/-! ### Index preservation on error paths -/

theorem popFault_index (st : KVStore) : st.popFault.2.index = st.index := by
  cases hf : st.faults <;> simp [KVStore.popFault, hf]

theorem flushBuf_index (st : KVStore) : st.flushBuf.2.index = st.index := by
  have := popFault_index st
  cases hp : st.popFault with
  | mk o st1 =>
    rw [hp] at this
    cases o <;> simp only [KVStore.flushBuf, hp] <;> exact this

theorem fileSync_index (st : KVStore) : st.fileSync.2.index = st.index := by
  have := popFault_index st
  cases hp : st.popFault with
  | mk o st1 =>
    rw [hp] at this
    cases o <;> simp only [KVStore.fileSync, hp] <;> exact this

theorem syncOp_index (st : KVStore) : st.syncOp.2.index = st.index := by
  have h1 := flushBuf_index st
  cases hp : st.flushBuf with
  | mk o st1 =>
    rw [hp] at h1
    cases o with
    | error e => simp only [KVStore.syncOp, hp]; exact h1
    | ok v =>
      simp only [KVStore.syncOp, hp]
      rw [fileSync_index st1]
      exact h1

theorem flush_to_os_index (st : KVStore) : st.flush_to_os.2.index = st.index :=
  flushBuf_index st

theorem applyWriteMod_index (cfg : Config) (st : KVStore) :
    (st.applyWriteMod cfg).2.index = st.index := by
  cases hm : cfg.write_mod with
  | Sync => simp only [KVStore.applyWriteMod, hm]; exact syncOp_index st
  | Buffer => simp only [KVStore.applyWriteMod, hm]; exact flush_to_os_index st

theorem rotate_index (st : KVStore) : st.rotate.2.index = st.index := by
  have h1 := syncOp_index st
  cases hp : st.syncOp with
  | mk o st1 =>
    rw [hp] at h1
    cases o <;> simp only [KVStore.rotate, hp] <;> exact h1

theorem next_seq_no_index (st : KVStore) : st.next_seq_no.2.index = st.index := by
  by_cases h : st.seq + 1 < 2 ^ 64
  · simp only [KVStore.next_seq_no, if_pos h]
  · simp only [KVStore.next_seq_no, if_neg h]

theorem write_entry_index (e : LogEntry) (st : KVStore) :
    (st.write_entry e).2.index = st.index := by
  have := popFault_index st
  cases hp : st.popFault with
  | mk o st1 =>
    rw [hp] at this
    cases o <;> simp only [KVStore.write_entry, hp] <;> exact this

/-- Any failing `set` leaves the index untouched. -/
theorem set_error_index (cfg : Config) (now : Nat) (key value : List Nat)
    (st : KVStore) (e : TErr) (st' : KVStore)
    (h : KVStore.set cfg now key value st = (.error e, st')) :
    st'.index = st.index := by
  simp only [KVStore.set] at h
  rcases hr : (if st.wOffset ≥ cfg.max_file_size then st.rotate else (.ok (), st))
    with ⟨r1, st1⟩
  have h1 : st1.index = st.index := by
    by_cases hc : st.wOffset ≥ cfg.max_file_size
    · rw [if_pos hc] at hr
      have hx := rotate_index st
      rw [hr] at hx
      exact hx
    · rw [if_neg hc] at hr
      have hx := congrArg Prod.snd hr
      simp only [] at hx
      rw [← hx]
  rw [hr] at h
  cases r1 with
  | error e1 =>
    simp only [] at h
    have h2 := congrArg Prod.snd h
    simp only [] at h2
    rw [← h2]
    exact h1
  | ok u =>
    simp only [] at h
    rcases hn : st1.next_seq_no with ⟨r2, st2⟩
    have h2 : st2.index = st1.index := by
      have hx := next_seq_no_index st1
      rw [hn] at hx
      exact hx
    rw [hn] at h
    cases r2 with
    | error e2 =>
      simp only [] at h
      have h3 := congrArg Prod.snd h
      simp only [] at h3
      rw [← h3, h2]
      exact h1
    | ok seqNo =>
      simp only [] at h
      rcases hw : st2.write_entry (LogEntry.new key value seqNo now) with ⟨r3, st3⟩
      have h3 : st3.index = st2.index := by
        have hx := write_entry_index (LogEntry.new key value seqNo now) st2
        rw [hw] at hx
        exact hx
      rw [hw] at h
      cases r3 with
      | error e3 =>
        simp only [] at h
        have h4 := congrArg Prod.snd h
        simp only [] at h4
        rw [← h4, h3, h2]
        exact h1
      | ok off =>
        simp only [] at h
        rcases ha : st3.applyWriteMod cfg with ⟨r4, st4⟩
        have h4 : st4.index = st3.index := by
          have hx := applyWriteMod_index cfg st3
          rw [ha] at hx
          exact hx
        rw [ha] at h
        cases r4 with
        | error e4 =>
          simp only [] at h
          have h5 := congrArg Prod.snd h
          simp only [] at h5
          rw [← h5, h4, h3, h2]
          exact h1
        | ok u2 =>
          simp only [] at h
          have hx := congrArg Prod.fst h
          simp at hx

/-- Any failing `set_with_ttl` leaves the index untouched. -/
theorem set_ttl_error_index (cfg : Config) (now : Nat) (key value : List Nat)
    (ttl : Nat) (st : KVStore) (e : TErr) (st' : KVStore)
    (h : KVStore.set_with_ttl cfg now key value ttl st = (.error e, st')) :
    st'.index = st.index := by
  simp only [KVStore.set_with_ttl] at h
  rcases hr : (if st.wOffset ≥ cfg.max_file_size then st.rotate else (.ok (), st))
    with ⟨r1, st1⟩
  have h1 : st1.index = st.index := by
    by_cases hc : st.wOffset ≥ cfg.max_file_size
    · rw [if_pos hc] at hr
      have hx := rotate_index st
      rw [hr] at hx
      exact hx
    · rw [if_neg hc] at hr
      have hx := congrArg Prod.snd hr
      simp only [] at hx
      rw [← hx]
  rw [hr] at h
  cases r1 with
  | error e1 =>
    simp only [] at h
    have h2 := congrArg Prod.snd h
    simp only [] at h2
    rw [← h2]
    exact h1
  | ok u =>
    simp only [] at h
    rcases hn : st1.next_seq_no with ⟨r2, st2⟩
    have h2 : st2.index = st1.index := by
      have hx := next_seq_no_index st1
      rw [hn] at hx
      exact hx
    rw [hn] at h
    cases r2 with
    | error e2 =>
      simp only [] at h
      have h3 := congrArg Prod.snd h
      simp only [] at h3
      rw [← h3, h2]
      exact h1
    | ok seqNo =>
      simp only [] at h
      rcases hw : st2.write_entry ((LogEntry.new key value seqNo now).with_ttl ((now + ttl % 2 ^ 64) % 2 ^ 64)) with ⟨r3, st3⟩
      have h3 : st3.index = st2.index := by
        have hx := write_entry_index ((LogEntry.new key value seqNo now).with_ttl ((now + ttl % 2 ^ 64) % 2 ^ 64)) st2
        rw [hw] at hx
        exact hx
      rw [hw] at h
      cases r3 with
      | error e3 =>
        simp only [] at h
        have h4 := congrArg Prod.snd h
        simp only [] at h4
        rw [← h4, h3, h2]
        exact h1
      | ok off =>
        simp only [] at h
        rcases ha : st3.applyWriteMod cfg with ⟨r4, st4⟩
        have h4 : st4.index = st3.index := by
          have hx := applyWriteMod_index cfg st3
          rw [ha] at hx
          exact hx
        rw [ha] at h
        cases r4 with
        | error e4 =>
          simp only [] at h
          have h5 := congrArg Prod.snd h
          simp only [] at h5
          rw [← h5, h4, h3, h2]
          exact h1
        | ok u2 =>
          simp only [] at h
          have hx := congrArg Prod.fst h
          simp at hx

/-- Any failing `remove` leaves the index untouched. -/
theorem remove_error_index (cfg : Config) (now : Nat) (key : List Nat)
    (st : KVStore) (e : TErr) (st' : KVStore)
    (h : KVStore.remove cfg now key st = (.error e, st')) :
    st'.index = st.index := by
  simp only [KVStore.remove] at h
  cases hi : st.index key with
  | none =>
    rw [hi] at h
    simp only [] at h
    have hx := congrArg Prod.fst h
    simp at hx
  | some li =>
    rw [hi] at h
    simp only [] at h
    rcases hn : st.next_seq_no with ⟨r2, st2⟩
    have h2 : st2.index = st.index := by
      have hx := next_seq_no_index st
      rw [hn] at hx
      exact hx
    rw [hn] at h
    cases r2 with
    | error e2 =>
      simp only [] at h
      have h3 := congrArg Prod.snd h
      simp only [] at h3
      rw [← h3]
      exact h2
    | ok seqNo =>
      simp only [] at h
      rcases hw : st2.write_entry (LogEntry.new_tombstone key seqNo now) with ⟨r3, st3⟩
      have h3 : st3.index = st2.index := by
        have hx := write_entry_index (LogEntry.new_tombstone key seqNo now) st2
        rw [hw] at hx
        exact hx
      rw [hw] at h
      cases r3 with
      | error e3 =>
        simp only [] at h
        have h4 := congrArg Prod.snd h
        simp only [] at h4
        rw [← h4, h3]
        exact h2
      | ok off =>
        simp only [] at h
        rcases ha : st3.applyWriteMod cfg with ⟨r4, st4⟩
        have h4 : st4.index = st3.index := by
          have hx := applyWriteMod_index cfg st3
          rw [ha] at hx
          exact hx
        rw [ha] at h
        cases r4 with
        | error e4 =>
          simp only [] at h
          have h5 := congrArg Prod.snd h
          simp only [] at h5
          rw [← h5, h4, h3]
          exact h2
        | ok u2 =>
          simp only [] at h
          have hx := congrArg Prod.fst h
          simp at hx

/-! ### Sequence-number bounds and reads after TTL writes -/

theorem replaySeq_base_le (S : List LogEntry) :
    ∀ s : Nat, s ≤ replaySeq s S := by
  induction S with
  | nil => intro s; exact le_refl _
  | cons e tl ih =>
    intro s
    calc s ≤ max s e.sequence_number := le_max_left _ _
    _ ≤ replaySeq (max s e.sequence_number) tl := ih _

theorem replaySeq_mem_le (S : List LogEntry) :
    ∀ (s : Nat) (e : LogEntry), e ∈ S → e.sequence_number ≤ replaySeq s S := by
  induction S with
  | nil => intro s e h; cases h
  | cons x tl ih =>
    intro s e h
    rcases List.mem_cons.mp h with rfl | h
    · calc e.sequence_number ≤ max s e.sequence_number := le_max_right _ _
      _ ≤ replaySeq (max s e.sequence_number) tl := replaySeq_base_le tl _
    · exact ih _ _ h

/-- Reading back a key right after a successful in-place `set_with_ttl`:
the answer is governed by the wrapped deadline
`(now + d mod 2^64) mod 2^64` that the record stores. -/
theorem get_after_set_ttl (cfg : Config) (now t : Nat) (key value : List Nat)
    (ttl : Nat) (st : KVStore) (hf : st.faults = []) (hseq : st.seq + 1 < 2 ^ 64)
    (hrot : ¬ st.wOffset ≥ cfg.max_file_size)
    (hal : st.wOffset = st.activeContent.length + st.wbuf.length)
    (hg : goodEntry cfg.max_key_size cfg.max_val_size
      ((LogEntry.new key value (st.seq + 1) now).with_ttl
        ((now + ttl % 2 ^ 64) % 2 ^ 64)) = true) :
    KVStore.get cfg t key (KVStore.set_with_ttl cfg now key value ttl st).2 =
      (if t > (now + ttl % 2 ^ 64) % 2 ^ 64 then .ok none
       else .ok (some ((LogEntry.new key value (st.seq + 1) now).with_ttl
         ((now + ttl % 2 ^ 64) % 2 ^ 64)))) := by
  rw [set_ttl_spec_stay cfg now key value ttl st hf hseq hrot]
  have hidx : (KVStore.index { st with
      activeContent := st.activeContent ++ (st.wbuf ++
        ((LogEntry.new key value (st.seq + 1) now).with_ttl
          ((now + ttl % 2 ^ 64) % 2 ^ 64)).encode_to),
      activeSynced :=
        (match cfg.write_mod with
         | .Sync => (st.activeContent ++ (st.wbuf ++
             ((LogEntry.new key value (st.seq + 1) now).with_ttl
               ((now + ttl % 2 ^ 64) % 2 ^ 64)).encode_to)).length
         | .Buffer => st.activeSynced),
      wbuf := [],
      wOffset := st.wOffset +
        ((LogEntry.new key value (st.seq + 1) now).with_ttl
          ((now + ttl % 2 ^ 64) % 2 ^ 64)).encodeRet,
      seq := st.seq + 1,
      faults := [],
      index := fun kk =>
        (if kk = key then
          some (LogIndex.mk st.activeId (value.length % 2 ^ 32) st.wOffset)
         else st.index kk) }) key =
      some (LogIndex.mk st.activeId (value.length % 2 ^ 32) st.wOffset) :=
    if_pos rfl
  rw [get_match_some cfg t key _ _ hidx]
  rw [if_pos (rfl :
    (LogIndex.mk st.activeId (value.length % 2 ^ 32) st.wOffset).file_id =
      st.activeId)]
  have hdrop : (st.activeContent ++ (st.wbuf ++
      ((LogEntry.new key value (st.seq + 1) now).with_ttl
        ((now + ttl % 2 ^ 64) % 2 ^ 64)).encode_to)).drop st.wOffset =
      ((LogEntry.new key value (st.seq + 1) now).with_ttl
        ((now + ttl % 2 ^ 64) % 2 ^ 64)).encode_to := by
    rw [hal, ← List.length_append, ← List.append_assoc, List.drop_left]
  have hdec := decode_from_append cfg.max_key_size cfg.max_val_size
    ((LogEntry.new key value (st.seq + 1) now).with_ttl
      ((now + ttl % 2 ^ 64) % 2 ^ 64)) [] hg
  rw [List.append_nil] at hdec
  show (match decode_from cfg.max_key_size cfg.max_val_size
      ((st.activeContent ++ (st.wbuf ++
        ((LogEntry.new key value (st.seq + 1) now).with_ttl
          ((now + ttl % 2 ^ 64) % 2 ^ 64)).encode_to)).drop st.wOffset) with
    | .error e => (.error e : Except TErr (Option LogEntry))
    | .ok none => .error (.ioErr .unexpectedEof)
    | .ok (some (entry, _)) =>
      match entry.expire_at with
      | some exp => if t > exp then .ok none else .ok (some entry)
      | none => .ok (some entry)) = _
  rw [hdrop, hdec]
  rfl

theorem get_none_of_index_none (cfg : Config) (t : Nat) (k : List Nat)
    (st : KVStore) (h : st.index k = none) :
    KVStore.get cfg t k st = .ok none := by
  simp only [KVStore.get, h]

/-! ### The claims -/

/-- C1: encode-then-decode round-trip.  It holds for every well-formed
record whose key is valid UTF-8 and whose key/value lengths are within the
limits **as truncated to `u32`** (`max_key_size as u32` in the decoder), and
`encode_to` reports exactly the number of bytes written.  The claim's
untruncated bound "at most max_key_size" is refuted by the counterexample
below. -/
theorem C1_round_trip (mk mv : Nat) (e : LogEntry) (X : List Nat)
    (h : goodEntry mk mv e = true) :
    decode_from mk mv (e.encode_to ++ X) = .ok (some (e, X)) ∧
    e.encodeRet = e.encode_to.length :=
  ⟨decode_from_append mk mv e X h, encodeRet_eq e⟩

/-- C1 witness: a concrete record round-trips under limits 16/16. -/
theorem C1_round_trip_witness :
    goodEntry 16 16 (LogEntry.new [97] [98] 1 2) = true ∧
    (decode_from 16 16 ((LogEntry.new [97] [98] 1 2).encode_to ++ [7]) =
      .ok (some (LogEntry.new [97] [98] 1 2, [7])) ∧
    (LogEntry.new [97] [98] 1 2).encodeRet =
      (LogEntry.new [97] [98] 1 2).encode_to.length) :=
  ⟨by decide, C1_round_trip 16 16 (LogEntry.new [97] [98] 1 2) [7] (by decide)⟩

/-- C1 counterexample: with `max_key_size = 2^32` (a legal `usize`), the
decoder's `as u32` cast turns the cap into 0, so even a 1-byte key fails to
round-trip: decoding the freshly encoded record yields `InvalidData` instead
of the record. -/
theorem C1_cex_usize_truncation :
    decode_from (2 ^ 32) (2 ^ 32) ((LogEntry.new [97] [98] 1 2).encode_to) =
      .error (.ioErr .invalidData) := by
  decide

/-- C9: the varint codec is little-endian LEB128 over both widths:
decoding inverts encoding below `2^32`/`2^64`, the decoder fails with
`VarintDecodeError` exactly when the first `5` (resp. `10`) bytes all carry
the continuation bit while the stream is long enough to reach the shift
ceiling `28` (resp. `63`), every encoding denotes its value under the
seven-bits-per-byte reading, and the continuation bit is set on a byte iff
more bytes follow. -/
theorem C9_varint_codec :
    (∀ (v : Nat) (rest : List Nat), v < 2 ^ 32 →
      decode_varint32 (encode_varint v ++ rest) = .ok (v, rest)) ∧
    (∀ (v : Nat) (rest : List Nat), v < 2 ^ 64 →
      decode_varint64 (encode_varint v ++ rest) = .ok (v, rest)) ∧
    (∀ s : List Nat, decode_varint32 s = .error .VarintDecodeError ↔
      (5 ≤ s.length ∧ ∀ b ∈ s.take 5, b &&& 128 ≠ 0)) ∧
    (∀ s : List Nat, decode_varint64 s = .error .VarintDecodeError ↔
      (10 ≤ s.length ∧ ∀ b ∈ s.take 10, b &&& 128 ≠ 0)) ∧
    (∀ v : Nat, leb128Val (encode_varint v) = v) ∧
    (∀ (v i : Nat), i < (encode_varint v).length →
      ((encode_varint v).getD i 0 &&& 128 ≠ 0 ↔
        i + 1 < (encode_varint v).length)) := by
  refine ⟨fun v rest hv => decode_varint32_enc v hv rest,
          fun v rest hv => decode_varint64_enc v hv rest, ?_, ?_,
          leb128Val_encode_varint, fun v => encode_varint_high_bit v⟩
  · intro s
    have h := decode_varint_go_vde 28 32 s 0 0
    rw [(by decide : vdeNeed 28 0 = 5)] at h
    exact h
  · intro s
    have h := decode_varint_go_vde 63 64 s 0 0
    rw [(by decide : vdeNeed 63 0 = 10)] at h
    exact h

/-- C9 witness: 300 round-trips through both decoders, and five
continuation bytes exhaust the 32-bit ceiling. -/
theorem C9_varint_codec_witness :
    decode_varint32 (encode_varint 300 ++ [7]) = .ok (300, [7]) ∧
    decode_varint64 (encode_varint 300 ++ [9]) = .ok (300, [9]) ∧
    (decode_varint32 [255, 255, 255, 255, 255] = .error .VarintDecodeError ↔
      (5 ≤ [255, 255, 255, 255, 255].length ∧
        ∀ b ∈ [255, 255, 255, 255, 255].take 5, b &&& 128 ≠ 0)) :=
  ⟨C9_varint_codec.1 300 [7] (by decide),
   C9_varint_codec.2.1 300 [9] (by decide),
   C9_varint_codec.2.2.1 [255, 255, 255, 255, 255]⟩

/-- C10: `validate_crc` returns `true` exactly when the CRC-32 of
`varint(k_len) ++ varint(v_len) ++ key_buf ++ val_buf` differs from the
`crc` argument — i.e. despite its name it signals a MISmatch. -/
theorem C10_validate_crc_inverted (crc k_len v_len : Nat)
    (key_buf val_buf : List Nat) :
    validate_crc crc k_len v_len key_buf val_buf = true ↔
      crc32 (encode_varint k_len ++ encode_varint v_len ++
        key_buf ++ val_buf) ≠ crc := by
  simp [validate_crc]

/-- C10 witness: a concrete instance of the mismatch reading. -/
theorem C10_validate_crc_inverted_witness :
    validate_crc 0 1 1 [97] [98] = true ↔
      crc32 (encode_varint 1 ++ encode_varint 1 ++ [97] ++ [98]) ≠ 0 :=
  C10_validate_crc_inverted 0 1 1 [97] [98]

/-- C7: `remove` of an unindexed key is a strict no-op returning `Ok`; on an
indexed key (absent faults, counter not at the 64-bit ceiling) it appends a
tombstone record (tombstone bit set, empty value, the freshly assigned
sequence number `seq+1`), applies the configured durability (fsync in
`Sync`, OS flush in `Buffer`), removes the index entry, and a subsequent
`get` returns `None`. -/
theorem C7_remove_semantics (cfg : Config) (now t : Nat) (key : List Nat)
    (st : KVStore) (li : LogIndex) :
    (st.index key = none → KVStore.remove cfg now key st = (.ok (), st)) ∧
    (st.index key = some li → st.faults = [] → st.seq + 1 < 2 ^ 64 →
      (LogEntry.new_tombstone key (st.seq + 1) now).entry_type &&& 1 ≠ 0 ∧
      (LogEntry.new_tombstone key (st.seq + 1) now).value = [] ∧
      (KVStore.remove cfg now key st).1 = .ok () ∧
      (KVStore.remove cfg now key st).2.activeContent = st.activeContent ++
        (st.wbuf ++ (LogEntry.new_tombstone key (st.seq + 1) now).encode_to) ∧
      (KVStore.remove cfg now key st).2.seq = st.seq + 1 ∧
      (cfg.write_mod = .Sync → (KVStore.remove cfg now key st).2.activeSynced =
        (KVStore.remove cfg now key st).2.activeContent.length) ∧
      (cfg.write_mod = .Buffer → (KVStore.remove cfg now key st).2.activeSynced =
        st.activeSynced) ∧
      (KVStore.remove cfg now key st).2.index key = none ∧
      KVStore.get cfg t key (KVStore.remove cfg now key st).2 = .ok none) := by
  refine ⟨remove_noop cfg now key st, fun hidx hf hseq => ?_⟩
  rw [remove_spec cfg now key st li hidx hf hseq]
  refine ⟨?_, rfl, rfl, rfl, rfl, ?_, ?_, if_pos rfl,
    get_none_of_index_none cfg t key _ (if_pos rfl)⟩
  · show (1 : Nat) &&& 1 ≠ 0
    decide
  · intro hs
    rw [hs]
  · intro hs
    rw [hs]

/-- C7 witness: on a store whose index holds `[97]` only, removing `[99]`
is a no-op and removing `[97]` appends the tombstone and makes the key
unreadable. -/
theorem C7_remove_semantics_witness :
    (KVStore.mk 1 [] 0 [] 0 []
        (fun k => if k = [97] then some (LogIndex.mk 1 1 0) else none) 0 []).index
        [99] = none ∧
    KVStore.remove (Config.mk 16 16 1000 .Buffer) 5 [99]
        (KVStore.mk 1 [] 0 [] 0 []
          (fun k => if k = [97] then some (LogIndex.mk 1 1 0) else none) 0 []) =
      (.ok (), KVStore.mk 1 [] 0 [] 0 []
        (fun k => if k = [97] then some (LogIndex.mk 1 1 0) else none) 0 []) ∧
    (KVStore.remove (Config.mk 16 16 1000 .Buffer) 5 [97]
        (KVStore.mk 1 [] 0 [] 0 []
          (fun k => if k = [97] then some (LogIndex.mk 1 1 0) else none) 0 [])).2.index
        [97] = none ∧
    KVStore.get (Config.mk 16 16 1000 .Buffer) 6 [97]
        (KVStore.remove (Config.mk 16 16 1000 .Buffer) 5 [97]
          (KVStore.mk 1 [] 0 [] 0 []
            (fun k => if k = [97] then some (LogIndex.mk 1 1 0) else none) 0 [])).2 =
      .ok none :=
  ⟨rfl,
   (C7_remove_semantics (Config.mk 16 16 1000 .Buffer) 5 6 [99]
     (KVStore.mk 1 [] 0 [] 0 []
       (fun k => if k = [97] then some (LogIndex.mk 1 1 0) else none) 0 [])
     (LogIndex.mk 1 1 0)).1 rfl,
   ((C7_remove_semantics (Config.mk 16 16 1000 .Buffer) 5 6 [97]
     (KVStore.mk 1 [] 0 [] 0 []
       (fun k => if k = [97] then some (LogIndex.mk 1 1 0) else none) 0 [])
     (LogIndex.mk 1 1 0)).2 rfl rfl (by decide)).2.2.2.2.2.2.2.1,
   ((C7_remove_semantics (Config.mk 16 16 1000 .Buffer) 5 6 [97]
     (KVStore.mk 1 [] 0 [] 0 []
       (fun k => if k = [97] then some (LogIndex.mk 1 1 0) else none) 0 [])
     (LogIndex.mk 1 1 0)).2 rfl rfl (by decide)).2.2.2.2.2.2.2.2⟩

/-- C8: `set_with_ttl` stores `expire_at = (now + d mod 2^64) mod 2^64` —
the wrapping `u64` image of `now + d`, not the mathematical sum the claim
describes — and a subsequent `get` returns the record iff the reading time
is not strictly beyond that stored deadline (the expired read leaves the
store untouched: `get` takes no mutable state in the source).  The
counterexample below shows the wrap makes a key unreadable immediately. -/
theorem C8_ttl_expiry (cfg : Config) (now t : Nat) (key value : List Nat)
    (ttl : Nat) (st : KVStore) (hf : st.faults = []) (hseq : st.seq + 1 < 2 ^ 64)
    (hrot : ¬ st.wOffset ≥ cfg.max_file_size)
    (hal : st.wOffset = st.activeContent.length + st.wbuf.length)
    (hg : goodEntry cfg.max_key_size cfg.max_val_size
      ((LogEntry.new key value (st.seq + 1) now).with_ttl
        ((now + ttl % 2 ^ 64) % 2 ^ 64)) = true) :
    ((LogEntry.new key value (st.seq + 1) now).with_ttl
      ((now + ttl % 2 ^ 64) % 2 ^ 64)).expire_at =
        some ((now + ttl % 2 ^ 64) % 2 ^ 64) ∧
    ((LogEntry.new key value (st.seq + 1) now).with_ttl
      ((now + ttl % 2 ^ 64) % 2 ^ 64)).entry_type &&& 4 ≠ 0 ∧
    KVStore.get cfg t key (KVStore.set_with_ttl cfg now key value ttl st).2 =
      (if t > (now + ttl % 2 ^ 64) % 2 ^ 64 then .ok none
       else .ok (some ((LogEntry.new key value (st.seq + 1) now).with_ttl
         ((now + ttl % 2 ^ 64) % 2 ^ 64)))) :=
  by
  refine ⟨rfl, ?_,
    get_after_set_ttl cfg now t key value ttl st hf hseq hrot hal hg⟩
  show ((0 : Nat) ||| 4) &&& 4 ≠ 0
  decide

/-- C8 witness: a fresh store, `now = 5`, `d = 100`: reading at `t = 50`
falls under the `t ≤ expire_at` arm of the proved characterization. -/
theorem C8_ttl_expiry_witness :
    (openSingle []).faults = [] ∧
    KVStore.get (Config.mk 16 16 1000 .Buffer) 50 [97]
      (KVStore.set_with_ttl (Config.mk 16 16 1000 .Buffer) 5 [97] [98] 100
        (openSingle [])).2 =
      (if 50 > (5 + 100 % 2 ^ 64) % 2 ^ 64 then .ok none
       else .ok (some ((LogEntry.new [97] [98] ((openSingle []).seq + 1) 5).with_ttl
         ((5 + 100 % 2 ^ 64) % 2 ^ 64)))) :=
  ⟨rfl,
   (C8_ttl_expiry (Config.mk 16 16 1000 .Buffer) 5 50 [97] [98] 100
     (openSingle []) rfl (by decide) (by decide) rfl (by decide)).2.2⟩

/-- C8 counterexample: `now = 1`, `d = 2^64 − 1`.  The stored deadline wraps
to `0`, so a read at the very write instant (`t = now = 1`, well before the
claimed `now + d`) already returns `None`. -/
theorem C8_cex_wraparound :
    KVStore.get (Config.mk 16 16 1000 .Buffer) 1 [97]
      (KVStore.set_with_ttl (Config.mk 16 16 1000 .Buffer) 1 [97] [98]
        (2 ^ 64 - 1) (openSingle [])).2 = .ok none := by
  decide

/-- C5: the `u64` sequence counter: `next_seq_no` hands out `seq + 1` and
advances the counter (so a fresh store assigns 1 first), errors without
advancing when the increment would pass `2^64 − 1`, a successful in-place
`set` commits `seq + 1`, and after `restore` the counter equals the
`max`-fold of the sequence numbers of all scanned records — an upper bound
of every surviving record's sequence number. -/
theorem C5_sequence_numbers (cfg : Config) (now : Nat) (key value : List Nat)
    (st : KVStore) (es : List LogEntry) (n : Nat)
    (hGood : ∀ e ∈ es, goodEntry cfg.max_key_size cfg.max_val_size e = true) :
    (st.seq + 1 < 2 ^ 64 →
      st.next_seq_no = (.ok (st.seq + 1), { st with seq := st.seq + 1 })) ∧
    (¬ st.seq + 1 < 2 ^ 64 →
      st.next_seq_no = (.error (.ioErr .otherKind), st)) ∧
    (st.faults = [] → st.seq + 1 < 2 ^ 64 → ¬ st.wOffset ≥ cfg.max_file_size →
      (KVStore.set cfg now key value st).2.seq = st.seq + 1) ∧
    (KVStore.restore cfg (openSingle ((concatEnc es).take n))).2.seq =
      replaySeq 0 (fitRecords es (((concatEnc es).take n).length)) ∧
    ∀ e ∈ fitRecords es (((concatEnc es).take n).length),
      e.sequence_number ≤
        (KVStore.restore cfg (openSingle ((concatEnc es).take n))).2.seq := by
  refine ⟨fun h => by simp only [KVStore.next_seq_no, if_pos h],
          fun h => by simp only [KVStore.next_seq_no, if_neg h],
          fun hf hseq hrot => by rw [set_spec_stay cfg now key value st hf hseq hrot],
          ?_, ?_⟩
  · rw [restore_openSingle cfg es n hGood]
    rfl
  · intro e he
    rw [restore_openSingle cfg es n hGood]
    exact replaySeq_mem_le _ _ _ he

/-- C5 witness: a fresh store assigns 1; a counter at `2^64 − 1` errors;
restoring a one-record log with sequence number 3 sets the counter to 3. -/
theorem C5_sequence_numbers_witness :
    (openSingle []).next_seq_no =
      (.ok ((openSingle []).seq + 1), { openSingle [] with seq := (openSingle []).seq + 1 }) ∧
    (KVStore.mk 1 [] 0 [] 0 [] (fun _ => none) (2 ^ 64 - 1) []).next_seq_no =
      (.error (.ioErr .otherKind), KVStore.mk 1 [] 0 [] 0 [] (fun _ => none) (2 ^ 64 - 1) []) ∧
    (KVStore.restore (Config.mk 16 16 1000 .Buffer)
        (openSingle ((concatEnc [LogEntry.new [97] [98] 3 2]).take 1000))).2.seq =
      replaySeq 0 (fitRecords [LogEntry.new [97] [98] 3 2]
        (((concatEnc [LogEntry.new [97] [98] 3 2]).take 1000).length)) :=
  ⟨(C5_sequence_numbers (Config.mk 16 16 1000 .Buffer) 0 [97] [98] (openSingle [])
      [] 0 (by decide)).1 (by decide),
   (C5_sequence_numbers (Config.mk 16 16 1000 .Buffer) 0 [97] [98]
      (KVStore.mk 1 [] 0 [] 0 [] (fun _ => none) (2 ^ 64 - 1) [])
      [] 0 (by decide)).2.1 (by decide),
   (C5_sequence_numbers (Config.mk 16 16 1000 .Buffer) 0 [97] [98] (openSingle [])
      [LogEntry.new [97] [98] 3 2] 1000 (by decide)).2.2.2.1⟩

/-- C3: the rotation check `current_offset ≥ max_file_size` sits at the
start of `set` and `set_with_ttl` only: when it fires the whole new record
lands contiguously at offset 0 of the fresh file, and below the threshold
the record is appended in place — the code never splits a record.  But the
condition is "offset already at/past the limit", not the claim's "appending
would exceed", and `remove` performs no check at all; both divergences are
exhibited by the counterexample. -/
theorem C3_rotation_check (cfg : Config) (now : Nat) (key value : List Nat)
    (ttl : Nat) (st : KVStore) (hf : st.faults = []) (hseq : st.seq + 1 < 2 ^ 64) :
    (st.wOffset ≥ cfg.max_file_size →
      (KVStore.set cfg now key value st).2.activeId = st.activeId + 1 ∧
      (KVStore.set cfg now key value st).2.activeContent =
        (LogEntry.new key value (st.seq + 1) now).encode_to ∧
      (KVStore.set cfg now key value st).2.index key =
        some (LogIndex.mk (st.activeId + 1) (value.length % 2 ^ 32) 0) ∧
      (KVStore.set_with_ttl cfg now key value ttl st).2.activeId =
        st.activeId + 1 ∧
      (KVStore.set_with_ttl cfg now key value ttl st).2.activeContent =
        ((LogEntry.new key value (st.seq + 1) now).with_ttl
          ((now + ttl % 2 ^ 64) % 2 ^ 64)).encode_to) ∧
    (¬ st.wOffset ≥ cfg.max_file_size →
      (KVStore.set cfg now key value st).2.activeId = st.activeId ∧
      (KVStore.set cfg now key value st).2.activeContent = st.activeContent ++
        (st.wbuf ++ (LogEntry.new key value (st.seq + 1) now).encode_to)) := by
  constructor
  · intro hr
    obtain ⟨-, h2, h3, h4⟩ :=
      set_ttl_spec_rotate cfg now key value ttl st hf hseq hr
    rw [set_spec_rotate cfg now key value st hf hseq hr]
    exact ⟨rfl, rfl, if_pos rfl, h2, h3⟩
  · intro hr
    rw [set_spec_stay cfg now key value st hf hseq hr]
    exact ⟨rfl, rfl⟩

/-- C3 witness: with the writer offset at the limit, `set` rotates and the
record fills the new file from offset 0; below the limit it stays. -/
theorem C3_rotation_check_witness :
    (KVStore.mk 1 [0, 0] 2 [] 2 [] (fun _ => none) 0 []).faults = [] ∧
    (KVStore.set (Config.mk 16 16 2 .Buffer) 3 [97] [98]
        (KVStore.mk 1 [0, 0] 2 [] 2 [] (fun _ => none) 0 [])).2.activeId =
      (KVStore.mk 1 [0, 0] 2 [] 2 [] (fun _ => none) 0 []).activeId + 1 ∧
    (KVStore.set (Config.mk 16 16 2 .Buffer) 3 [97] [98]
        (KVStore.mk 1 [0, 0] 2 [] 2 [] (fun _ => none) 0 [])).2.activeContent =
      (LogEntry.new [97] [98] ((KVStore.mk 1 [0, 0] 2 [] 2 []
        (fun _ => none) 0 []).seq + 1) 3).encode_to :=
  ⟨rfl,
   ((C3_rotation_check (Config.mk 16 16 2 .Buffer) 3 [97] [98] 0
      (KVStore.mk 1 [0, 0] 2 [] 2 [] (fun _ => none) 0 []) rfl (by decide)).1
      (by decide)).1,
   ((C3_rotation_check (Config.mk 16 16 2 .Buffer) 3 [97] [98] 0
      (KVStore.mk 1 [0, 0] 2 [] 2 [] (fun _ => none) 0 []) rfl (by decide)).1
      (by decide)).2.1⟩

/-- C3 counterexample: (a) `remove` appends its tombstone with no rotation
check although the offset is already past `max_file_size`; (b) `set` below
the threshold appends a record that overflows `max_file_size` in the same
file instead of rotating first, contradicting "if appending would exceed
max_file_size the rotation is done first". -/
theorem C3_cex_no_rotation :
    ((KVStore.remove (Config.mk 16 16 1 .Buffer) 3 [97]
        (KVStore.mk 1 [0, 0] 2 [] 2 []
          (fun k => if k = [97] then some (LogIndex.mk 1 1 0) else none) 1 [])).2.activeId =
      1 ∧
     (KVStore.remove (Config.mk 16 16 1 .Buffer) 3 [97]
        (KVStore.mk 1 [0, 0] 2 [] 2 []
          (fun k => if k = [97] then some (LogIndex.mk 1 1 0) else none) 1 [])).1 =
      .ok () ∧
     (KVStore.remove (Config.mk 16 16 1 .Buffer) 3 [97]
        (KVStore.mk 1 [0, 0] 2 [] 2 []
          (fun k => if k = [97] then some (LogIndex.mk 1 1 0) else none) 1 [])).2.wOffset >
      (Config.mk 16 16 1 .Buffer).max_file_size) ∧
    ((KVStore.set (Config.mk 16 16 3 .Buffer) 3 [99] [100]
        (KVStore.mk 1 [0, 0] 2 [] 2 [] (fun _ => none) 0 [])).2.activeId = 1 ∧
     (KVStore.set (Config.mk 16 16 3 .Buffer) 3 [99] [100]
        (KVStore.mk 1 [0, 0] 2 [] 2 [] (fun _ => none) 0 [])).2.activeContent.length >
      (Config.mk 16 16 3 .Buffer).max_file_size) := by
  decide

/-- C4: whatever fault occurs — encoding/buffered write, flush, or fsync,
injected at any point — a failing `set`, `set_with_ttl` or `remove` returns
the error with the in-memory index exactly as before (the index update is
sequenced after the durability step); and in `Sync` mode a successful
in-place `set` leaves no buffered bytes, marks the whole file content
durable, and indexes the key at an offset whose bytes are exactly the
record just written — so every visible index entry points at durable
bytes. -/
theorem C4_sync_before_index (cfg : Config) (now : Nat) (key value : List Nat)
    (st : KVStore) :
    (∀ e st', KVStore.set cfg now key value st = (.error e, st') →
      st'.index = st.index) ∧
    (∀ ttl e st', KVStore.set_with_ttl cfg now key value ttl st = (.error e, st') →
      st'.index = st.index) ∧
    (∀ e st', KVStore.remove cfg now key st = (.error e, st') →
      st'.index = st.index) ∧
    (cfg.write_mod = .Sync → st.faults = [] → st.seq + 1 < 2 ^ 64 →
      ¬ st.wOffset ≥ cfg.max_file_size →
      st.wOffset = st.activeContent.length + st.wbuf.length →
      (KVStore.set cfg now key value st).1 = .ok () ∧
      (KVStore.set cfg now key value st).2.wbuf = [] ∧
      (KVStore.set cfg now key value st).2.activeSynced =
        (KVStore.set cfg now key value st).2.activeContent.length ∧
      (KVStore.set cfg now key value st).2.index key =
        some (LogIndex.mk st.activeId (value.length % 2 ^ 32) st.wOffset) ∧
      (KVStore.set cfg now key value st).2.activeContent.drop st.wOffset =
        (LogEntry.new key value (st.seq + 1) now).encode_to) := by
  refine ⟨fun e st' h => set_error_index cfg now key value st e st' h,
          fun ttl e st' h => set_ttl_error_index cfg now key value ttl st e st' h,
          fun e st' h => remove_error_index cfg now key st e st' h,
          fun hs hf hseq hrot hal => ?_⟩
  rw [set_spec_stay cfg now key value st hf hseq hrot]
  refine ⟨rfl, rfl, ?_, if_pos rfl, ?_⟩
  · show (match cfg.write_mod with
      | WriteMod.Sync => (st.activeContent ++
          (st.wbuf ++ (LogEntry.new key value (st.seq + 1) now).encode_to)).length
      | WriteMod.Buffer => st.activeSynced) =
      (st.activeContent ++
        (st.wbuf ++ (LogEntry.new key value (st.seq + 1) now).encode_to)).length
    rw [hs]
  · show (st.activeContent ++
      (st.wbuf ++ (LogEntry.new key value (st.seq + 1) now).encode_to)).drop
        st.wOffset = (LogEntry.new key value (st.seq + 1) now).encode_to
    rw [hal, ← List.length_append, ← List.append_assoc, List.drop_left]

/-- C4 witness: an injected fsync fault makes `set` fail with the index
untouched, and a clean `Sync`-mode `set` on a fresh store yields a durable,
correctly indexed record. -/
theorem C4_sync_before_index_witness :
    KVStore.set (Config.mk 16 16 1000 .Sync) 2 [97] [98]
        (KVStore.mk 1 [] 0 [] 0 [] (fun _ => none) 0
          [none, none, some (.ioErr .otherKind)]) =
      (.error (.ioErr .otherKind),
        (KVStore.set (Config.mk 16 16 1000 .Sync) 2 [97] [98]
          (KVStore.mk 1 [] 0 [] 0 [] (fun _ => none) 0
            [none, none, some (.ioErr .otherKind)])).2) ∧
    (KVStore.set (Config.mk 16 16 1000 .Sync) 2 [97] [98]
        (KVStore.mk 1 [] 0 [] 0 [] (fun _ => none) 0
          [none, none, some (.ioErr .otherKind)])).2.index =
      (KVStore.mk 1 [] 0 [] 0 [] (fun _ => none) 0
        [none, none, some (.ioErr .otherKind)] : KVStore).index ∧
    (KVStore.set (Config.mk 16 16 1000 .Sync) 2 [97] [98] (openSingle [])).2.activeSynced =
      (KVStore.set (Config.mk 16 16 1000 .Sync) 2 [97] [98] (openSingle [])).2.activeContent.length ∧
    (KVStore.set (Config.mk 16 16 1000 .Sync) 2 [97] [98] (openSingle [])).2.index [97] =
      some (LogIndex.mk (openSingle []).activeId ([98].length % 2 ^ 32) (openSingle []).wOffset) ∧
    (KVStore.set (Config.mk 16 16 1000 .Sync) 2 [97] [98] (openSingle [])).2.activeContent.drop
        (openSingle []).wOffset =
      (LogEntry.new [97] [98] ((openSingle []).seq + 1) 2).encode_to :=
  ⟨rfl,
   (C4_sync_before_index (Config.mk 16 16 1000 .Sync) 2 [97] [98]
      (KVStore.mk 1 [] 0 [] 0 [] (fun _ => none) 0
        [none, none, some (.ioErr .otherKind)])).1 (.ioErr .otherKind) _ rfl,
   ((C4_sync_before_index (Config.mk 16 16 1000 .Sync) 2 [97] [98]
      (openSingle [])).2.2.2 rfl rfl (by decide) (by decide) rfl).2.2.1,
   ((C4_sync_before_index (Config.mk 16 16 1000 .Sync) 2 [97] [98]
      (openSingle [])).2.2.2 rfl rfl (by decide) (by decide) rfl).2.2.2.1,
   ((C4_sync_before_index (Config.mk 16 16 1000 .Sync) 2 [97] [98]
      (openSingle [])).2.2.2 rfl rfl (by decide) (by decide) rfl).2.2.2.2⟩

/-- C6: decoder error classification.  `None` is returned exactly on an
empty stream (for both decoders); any strictly shorter prefix of a record is
`UnexpectedEof`; key/value lengths are rejected as `InvalidData` right after
the two length varints (before key or value bytes are consumed) when they
exceed the limits **truncated to `u32`** — the untruncated reading of the
claim is refuted by the counterexample; a non-UTF-8 key is `InvalidData`; a
wrong stored header CRC or body CRC is `CrcMismatch`; and otherwise the
record (resp. header and key) is returned. -/
theorem C6_decoder_classification (mk mv : Nat) (e : LogEntry) (m c2 : Nat)
    (v2 X s : List Nat) :
    (decode_header_and_key mk mv s = .ok none ↔ s = []) ∧
    (decode_from mk mv s = .ok none ↔ s = []) ∧
    (goodEntry mk mv e = true → 1 ≤ m → m < e.encode_to.length →
      decode_from mk mv (e.encode_to.take m) = .error (.ioErr .unexpectedEof)) ∧
    (wfEntry e = true → e.key.length < 2 ^ 32 → e.value.length < 2 ^ 32 →
      (e.key.length > mk % 2 ^ 32 ∨ e.value.length > mv % 2 ^ 32) →
      decode_header_and_key mk mv (e.encode_header.take e.metaPrefixLen) =
        .error (.ioErr .invalidData)) ∧
    (wfEntry e = true → e.key.length ≤ mk % 2 ^ 32 → e.value.length ≤ mv % 2 ^ 32 →
      utf8Valid e.key = false →
      decode_header_and_key mk mv (e.encode_header ++ X) =
        .error (.ioErr .invalidData)) ∧
    (wfEntry e = true → e.key.length ≤ mk % 2 ^ 32 → e.value.length ≤ mv % 2 ^ 32 →
      c2 < 2 ^ 32 → c2 ≠ crc32 (e.headerMeta ++ e.key) →
      decode_header_and_key mk mv (leBytes4 c2 ++ e.headerMeta ++ e.key ++ X) =
        .error (.CrcMismatch c2)) ∧
    (goodEntry mk mv e = true → v2.length = e.value.length → c2 < 2 ^ 32 →
      crc32 v2 ≠ c2 →
      decode_from mk mv (e.encode_header ++ leBytes4 c2 ++ v2 ++ X) =
        .error (.CrcMismatch c2)) ∧
    (goodEntry mk mv e = true →
      decode_header_and_key mk mv (e.encode_header ++ X) =
        .ok (some (e.toHeader, X)) ∧
      decode_from mk mv (e.encode_to ++ X) = .ok (some (e, X))) :=
  ⟨decode_header_and_key_none,
   decode_from_none,
   fun hg h1 h2 => decode_from_take_eof mk mv e m hg h1 h2,
   fun a b c d => decode_hk_oversize_early mk mv e a b c d,
   fun a b c d => decode_hk_bad_utf8 mk mv e X a b c d,
   fun a b c d f => decode_hk_header_crc_mismatch mk mv e c2 X a b c d f,
   fun hg a b c => decode_from_body_crc_mismatch mk mv e c2 v2 X hg a b c,
   fun hg => ⟨decode_hk_append mk mv e X hg, decode_from_append mk mv e X hg⟩⟩

/-- C6 witness: concrete instances of each classification arm — clean EOF on
the empty stream, `UnexpectedEof` on a 3-byte prefix, `InvalidData` at the
length check under `max_key_size = 0`, `InvalidData` on the non-UTF-8 key
`0xC8`, `CrcMismatch 0` for a zeroed header CRC and for a corrupted body,
and a full decode. -/
theorem C6_decoder_classification_witness :
    (decode_from 16 16 ([] : List Nat) = .ok none ↔ ([] : List Nat) = []) ∧
    decode_from 16 16 ((LogEntry.new [97] [98] 1 2).encode_to.take 3) =
      .error (.ioErr .unexpectedEof) ∧
    decode_header_and_key 0 16
        ((LogEntry.new [97] [98] 1 2).encode_header.take
          (LogEntry.new [97] [98] 1 2).metaPrefixLen) =
      .error (.ioErr .invalidData) ∧
    decode_header_and_key 16 16
        ((LogEntry.new [200] [98] 1 2).encode_header ++ [5]) =
      .error (.ioErr .invalidData) ∧
    decode_header_and_key 16 16
        (leBytes4 0 ++ (LogEntry.new [97] [98] 1 2).headerMeta ++ [97] ++ [5]) =
      .error (.CrcMismatch 0) ∧
    decode_from 16 16
        ((LogEntry.new [97] [98] 1 2).encode_header ++ leBytes4 0 ++ [99] ++ [5]) =
      .error (.CrcMismatch 0) ∧
    decode_from 16 16 ((LogEntry.new [97] [98] 1 2).encode_to ++ [5]) =
      .ok (some (LogEntry.new [97] [98] 1 2, [5])) :=
  ⟨(C6_decoder_classification 16 16 (LogEntry.new [97] [98] 1 2) 3 0 [99] [5]
      ([] : List Nat)).2.1,
   (C6_decoder_classification 16 16 (LogEntry.new [97] [98] 1 2) 3 0 [99] [5]
      []).2.2.1 (by decide) (by decide) (by decide),
   (C6_decoder_classification 0 16 (LogEntry.new [97] [98] 1 2) 3 0 [99] [5]
      []).2.2.2.1 (by decide) (by decide) (by decide) (by decide),
   (C6_decoder_classification 16 16 (LogEntry.new [200] [98] 1 2) 3 0 [99] [5]
      []).2.2.2.2.1 (by decide) (by decide) (by decide) (by decide),
   (C6_decoder_classification 16 16 (LogEntry.new [97] [98] 1 2) 3 0 [99] [5]
      []).2.2.2.2.2.1 (by decide) (by decide) (by decide) (by decide) (by decide),
   (C6_decoder_classification 16 16 (LogEntry.new [97] [98] 1 2) 3 0 [99] [5]
      []).2.2.2.2.2.2.1 (by decide) (by decide) (by decide) (by decide),
   ((C6_decoder_classification 16 16 (LogEntry.new [97] [98] 1 2) 3 0 [99] [5]
      []).2.2.2.2.2.2.2 (by decide)).2⟩

/-- C6 counterexample: with `max_val_size = 2^32` the header-and-key decoder
rejects a 1-byte value as `InvalidData` — `value_len > max_val_size` is
false mathematically (`1 ≤ 2^32`), but the comparison is done against
`max_val_size as u32 = 0`. -/
theorem C6_cex_val_truncation :
    decode_header_and_key 16 (2 ^ 32) ((LogEntry.new [97] [98] 1 2).encode_header) =
      .error (.ioErr .invalidData) := by
  decide

/-- C2: recovery closure.  Opening any byte-length prefix of a well-formed
log and running `restore` succeeds and produces exactly the replay of the
records that fit the prefix: a cut final record is truncated away (content,
synced length and writer offset all land at the end of the surviving
records), and `get` afterwards is governed by the LAST surviving record for
the key — its value when that record is live, `None` when the key's last
surviving record is a tombstone (which refutes the claim's "every key whose
record survives is readable") and `None` when every record for the key was
cut. -/
theorem C2_recovery_replay (cfg : Config) (es : List LogEntry) (n now : Nat)
    (k : List Nat)
    (hGood : ∀ e ∈ es, goodEntry cfg.max_key_size cfg.max_val_size e = true) :
    KVStore.restore cfg (openSingle ((concatEnc es).take n)) =
      (.ok (), replayedStore es (((concatEnc es).take n).length)) ∧
    KVStore.get cfg now k (replayedStore es (((concatEnc es).take n).length)) =
      (match lastFor k 0 (fitRecords es (((concatEnc es).take n).length)) with
       | none => .ok none
       | some (e, _) =>
         if e.entry_type &&& 1 ≠ 0 then .ok none
         else match e.expire_at with
              | some exp => if now > exp then .ok none else .ok (some e)
              | none => .ok (some e)) :=
  ⟨restore_openSingle cfg es n hGood, get_restored cfg now k es _ hGood⟩

/-- C2 witness: restoring a one-record log (no truncation) and reading the
key back. -/
theorem C2_recovery_replay_witness :
    (∀ e ∈ [LogEntry.new [97] [98] 1 2], goodEntry 16 16 e = true) ∧
    KVStore.restore (Config.mk 16 16 1000 .Buffer)
        (openSingle ((concatEnc [LogEntry.new [97] [98] 1 2]).take 1000)) =
      (.ok (), replayedStore [LogEntry.new [97] [98] 1 2]
        (((concatEnc [LogEntry.new [97] [98] 1 2]).take 1000).length)) ∧
    KVStore.get (Config.mk 16 16 1000 .Buffer) 9 [97]
        (replayedStore [LogEntry.new [97] [98] 1 2]
          (((concatEnc [LogEntry.new [97] [98] 1 2]).take 1000).length)) =
      (match lastFor [97] 0 (fitRecords [LogEntry.new [97] [98] 1 2]
          (((concatEnc [LogEntry.new [97] [98] 1 2]).take 1000).length)) with
       | none => .ok none
       | some (e, _) =>
         if e.entry_type &&& 1 ≠ 0 then .ok none
         else match e.expire_at with
              | some exp => if 9 > exp then .ok none else .ok (some e)
              | none => .ok (some e)) :=
  ⟨by decide,
   (C2_recovery_replay (Config.mk 16 16 1000 .Buffer)
     [LogEntry.new [97] [98] 1 2] 1000 9 [97] (by decide)).1,
   (C2_recovery_replay (Config.mk 16 16 1000 .Buffer)
     [LogEntry.new [97] [98] 1 2] 1000 9 [97] (by decide)).2⟩

/-- C2 counterexample: a log `set [97] ↦ [98]; remove [97]` restores with
both records intact (the recovered file content is the full log — nothing
was cut), yet `get [97]` returns `None`: a key whose record survives the
truncation is not readable, because its last surviving record is a
tombstone. -/
theorem C2_cex_tombstoned_key :
    KVStore.get (Config.mk 16 16 1000 .Buffer) 9 [97]
      (KVStore.restore (Config.mk 16 16 1000 .Buffer)
        (openSingle (concatEnc [LogEntry.new [97] [98] 1 2,
          LogEntry.new_tombstone [97] 2 3]))).2 = .ok none ∧
    (KVStore.restore (Config.mk 16 16 1000 .Buffer)
        (openSingle (concatEnc [LogEntry.new [97] [98] 1 2,
          LogEntry.new_tombstone [97] 2 3]))).2.activeContent =
      concatEnc [LogEntry.new [97] [98] 1 2, LogEntry.new_tombstone [97] 2 3] := by
  decide
